import Mathlib

/-!
Verification of the mkgroups permission-reconciliation tool (src/mkgroups.py).

The Python program is shallowly embedded: Python dicts become association
lists (`List (String × α)`), Python `str.lower()/upper()` becomes a map of
`Char.toLower/toUpper` over the character data, `sys.exit` failures become
`Except`/`Option` results, and the command-emitting `Server` classes become
pure functions returning a list of abstract operations (`Op`).
-/

namespace Mkgroups

/-- Model of Python str.lower(): lower-case every character. -/
def pyLower (s : String) : String := ⟨s.data.map Char.toLower⟩

/-- Model of Python str.upper(): upper-case every character. -/
def pyUpper (s : String) : String := ⟨s.data.map Char.toUpper⟩

/-- mkgroups.py lowerArray: lower-case every element of the list. -/
def lowerArray (a : List String) : List String := a.map pyLower

/-- Python dict lookup (d.get(k)): first binding of the key, if any. -/
def dictGet {α : Type} (m : List (String × α)) (k : String) : Option α :=
  match m with
  | [] => none
  | (k', v) :: rest => if k' = k then some v else dictGet rest k

/-- Python dict update (d[k] = v): replace the binding in place, else append. -/
def dictSet {α : Type} (m : List (String × α)) (k : String) (v : α) :
    List (String × α) :=
  match m with
  | [] => [(k, v)]
  | (k', v') :: rest => if k' = k then (k, v) :: rest else (k', v') :: dictSet rest k v

/-- Keys of an association list, in insertion order. -/
def dictKeys {α : Type} (m : List (String × α)) : List String := m.map Prod.fst

/-- Python d.setdefault(k, dflt) applied for every key of ks in order. -/
def setdefaults {α : Type} (m : List (String × α)) (ks : List String) (d : α) :
    List (String × α) :=
  match ks with
  | [] => m
  | k :: rest => setdefaults (if (dictGet m k).isSome then m else m ++ [(k, d)]) rest d

/-- Python string comparison: lexicographic on the code points. -/
def strLe (a b : String) : Prop := a.data ≤ b.data

instance : DecidableRel strLe := fun a b => inferInstanceAs (Decidable (a.data ≤ b.data))

instance : IsTotal String strLe := ⟨fun a b => le_total a.data b.data⟩

instance : IsTrans String strLe := ⟨fun _ _ _ h h' => le_trans h h'⟩

instance : IsAntisymm String strLe := ⟨fun _ _ h h' => String.ext (le_antisymm h h')⟩

/-- Comparison used by sorted(l, key=lambda v: v.upper()) in mkgroups.py. -/
def upperLe (a b : String) : Prop := strLe (pyUpper a) (pyUpper b)

instance : DecidableRel upperLe := fun a b =>
  inferInstanceAs (Decidable (strLe (pyUpper a) (pyUpper b)))

instance : IsTotal String upperLe := ⟨fun a b => le_total (pyUpper a).data (pyUpper b).data⟩

instance : IsTrans String upperLe := ⟨fun _ _ _ h h' => le_trans h h'⟩

/-- Python sorted() on a list of strings (code-point lexicographic order). -/
def sortStrs (l : List String) : List String := l.insertionSort strLe

/-- Python sorted(l, key=lambda v: v.upper()). -/
def sortByUpper (l : List String) : List String := l.insertionSort upperLe

/-- Parse one bPermissions token: a leading caret denotes negation.  Returns
the bare node and its asserted/negated state, as in the body of the loop of
permissionsAsBooleanMap. -/
def parseTok (t : String) : String × Bool :=
  if t.data.head? = some '^' then (⟨t.data.tail⟩, false) else (t, true)

/-- Loop of mkgroups.py permissionsAsBooleanMap over the (already lowered)
token list, carrying the map built so far.  An error carries the group name
and the conflicting node, as printed by the Python error message. -/
def pamGo (group : String) : List String → List (String × Bool) →
    Except (String × String) (List (String × Bool))
  | [], acc => .ok acc
  | bp :: rest, acc =>
    let p := parseTok bp
    if dictGet acc p.1 = some (!p.2) then
      .error (group, p.1)
    else
      pamGo group rest (dictSet acc p.1 p.2)

/-- mkgroups.py permissionsAsBooleanMap: convert a bPermissions list to a map
from lower-cased node to True/False, failing if a node occurs with both
polarities. -/
def permissionsAsBooleanMap (perms : List String) (group : String) :
    Except (String × String) (List (String × Bool)) :=
  pamGo group (lowerArray perms) []

/-- mkgroups.py differencePermissions: minimal changes turning the before
permissions into the after permissions, sorted, in bPermissions syntax. -/
def differencePermissions (before after : List String) (group : String) :
    Except (String × String) (List String) := do
  let beforeMap ← permissionsAsBooleanMap before group
  let afterMap ← permissionsAsBooleanMap after group
  let nodes := (dictKeys beforeMap ++ dictKeys afterMap).dedup
  let changes := nodes.filterMap fun node =>
    match dictGet afterMap node with
    | none => none
    | some av =>
      if dictGet beforeMap node = some av then none
      else some (if av then node else "^" ++ node)
  return sortStrs changes

/-- mkgroups.py mergePermissions: lower both lists, take the set union and
return it sorted.  None arguments are treated as the empty list. -/
def mergePermissions (a b : Option (List String)) : List String :=
  sortStrs ((lowerArray (a.getD []) ++ lowerArray (b.getD [])).dedup)

/-- mkgroups.py mergeGroups: append the elements of b not already in a,
preserving order and case. -/
def mergeGroups (a b : List String) : List String :=
  a ++ b.filter (fun g => !(a.contains g))

/-- mkgroups.py mergeDicts with a total merge function: start from a and fold
in b, merging values on duplicate keys and appending new keys. -/
def mergeDicts {α : Type} (a b : List (String × α)) (f : String → α → α → α) :
    List (String × α) :=
  match b with
  | [] => a
  | (k, v) :: rest =>
    match dictGet a k with
    | some v0 => mergeDicts (dictSet a k (f k v0 v)) rest f
    | none => mergeDicts (a ++ [(k, v)]) rest f

/-- A permission context: the groups, weights and permissions maps built by
mkgroups.py loadModules/makeContext. -/
structure Context where
  groups : List (String × List String)
  weights : List (String × Int)
  permissions : List (String × List String)
deriving DecidableEq

/-- All group names mentioned in the three maps of a context: keys of the
groups, permissions and weights maps together with every parent named in a
parent list (the set allGroups of makeContext).  Represented as a duplicate
free list. -/
def allMentioned (groups : List (String × List String)) (weights : List (String × Int))
    (permissions : List (String × List String)) : List String :=
  (dictKeys groups ++ dictKeys permissions ++ dictKeys weights
    ++ (groups.map Prod.snd).flatten).dedup

/-- The distinct case-insensitive name classes among the mentioned groups. -/
def nameClasses (allGroups : List String) : List String :=
  (allGroups.map pyLower).dedup

/-- The case-conflict report of makeContext: for every lower-cased name class
with more than one distinct spelling, the class and all its spellings. -/
def nameConflicts (allGroups : List String) : List (String × List String) :=
  (nameClasses allGroups).filterMap fun c =>
    let ms := allGroups.filter fun g => pyLower g = c
    if 1 < ms.length then some (c, ms) else none

/-- mkgroups.py makeContext: check case-consistent group naming, then give
every mentioned group an entry in the groups and permissions maps. -/
def makeContext (groups : List (String × List String)) (weights : List (String × Int))
    (permissions : List (String × List String)) :
    Except (List (String × List String)) Context :=
  let allGroups := allMentioned groups weights permissions
  if nameConflicts allGroups = [] then
    .ok ⟨setdefaults groups allGroups [], weights, setdefaults permissions allGroups []⟩
  else
    .error (nameConflicts allGroups)

/-- Abstract permissions operations issued by the Server classes. -/
inductive Op where
  | createGroup (group world : String)
  | setGroupWeight (group : String) (weight : Option Int) (world : String)
  | deleteGroup (group world : String)
  | clearPerms (group world : String)
  | addPerm (group perm world : String)
  | addParent (group parent world : String)
deriving DecidableEq

/-- mkgroups.py Server.updatePermissions: the sequence of logical operations
issued for one context (create groups and set weights, then add parents, then
add permissions), processing groups in upper-cased sorted order. -/
def serverUpdateOps (ctx : Context) (world : String) : List Op :=
  let ns := sortByUpper (dictKeys ctx.groups)
  (ns.map fun g =>
    (if pyLower g ≠ "default" then [Op.createGroup g world] else [])
      ++ [Op.setGroupWeight g (dictGet ctx.weights g) world]).flatten
  ++ (ns.map fun g =>
      ((dictGet ctx.groups g).getD []).map fun p => Op.addParent g p world).flatten
  ++ (ns.map fun g =>
      ((dictGet ctx.permissions g).getD []).map fun p => Op.addPerm g p world).flatten

/-- mkgroups.py Server.deletePermissions: clear the default group, delete all
other groups, in upper-cased sorted order. -/
def serverDeleteOps (ctx : Context) (world : String) : List Op :=
  (sortByUpper (dictKeys ctx.groups)).map fun g =>
    if pyLower g = "default" then Op.clearPerms g world else Op.deleteGroup g world

/-- Permission section of LuckPermsServer.updatePermissions for a non-default
world: per group, diff the default context permissions against the world
permissions; a conflicting permission list aborts (None). -/
def permDiffOps (dctx ctx : Context) (world : String) :
    List String → Option (List Op)
  | [] => some []
  | g :: gs =>
    match differencePermissions ((dictGet dctx.permissions g).getD [])
        ((dictGet ctx.permissions g).getD []) g with
    | .error _ => none
    | .ok changed =>
      match permDiffOps dctx ctx world gs with
      | none => none
      | some rest => some ((changed.map fun p => Op.addPerm g p world) ++ rest)

/-- Group creation section of LuckPermsServer.updatePermissions for a
non-default world: create (sorted) the groups of the world absent from the
default context, except a group named (case-insensitively) default. -/
def luckCreateOps (dctx ctx : Context) (world : String) : List Op :=
  (sortByUpper (((dictKeys ctx.groups).filter
      (fun g => !decide (g ∈ dictKeys dctx.groups))).dedup)).filterMap fun g =>
    if pyLower g ≠ "default" then some (Op.createGroup g world) else none

/-- Weight section of LuckPermsServer.updatePermissions for a non-default
world: set the weight only where specified and different from the default. -/
def luckWeightOps (dctx ctx : Context) (world : String) : List Op :=
  (sortByUpper (dictKeys ctx.groups)).filterMap fun g =>
    match dictGet ctx.weights g with
    | none => none
    | some w =>
      if some w ≠ dictGet dctx.weights g then some (Op.setGroupWeight g (some w) world)
      else none

/-- Parent section of LuckPermsServer.updatePermissions for a non-default
world: issue all parent-add commands for a group exactly when its parent
list differs from the default context's entry. -/
def luckParentOps (dctx ctx : Context) (world : String) : List Op :=
  ((sortByUpper (dictKeys ctx.groups)).map fun g =>
    if dictGet ctx.groups g ≠ dictGet dctx.groups g then
      ((dictGet ctx.groups g).getD []).map fun p => Op.addParent g p world
    else []).flatten

/-- mkgroups.py LuckPermsServer.updatePermissions: for the default world,
behave as Server.updatePermissions; otherwise emit only the differences
against the default context.  None models a KeyError on a missing context or
a fatal conflicting-permission exit. -/
def luckUpdateOps (contextMap : List (String × Context)) (world : String) :
    Option (List Op) :=
  if world = "default" then
    (dictGet contextMap world).map fun ctx => serverUpdateOps ctx world
  else
    match dictGet contextMap "default", dictGet contextMap world with
    | some dctx, some ctx =>
      match permDiffOps dctx ctx world (sortByUpper (dictKeys ctx.groups)) with
      | none => none
      | some permOps =>
        some (luckCreateOps dctx ctx world ++ luckWeightOps dctx ctx world
          ++ luckParentOps dctx ctx world ++ permOps)
    | _, _ => none

/-- mkgroups.py LuckPermsServer.deletePermissions: for the default world,
behave as Server.deletePermissions; otherwise clear every group of the
default context and delete the groups unique to the world. -/
def luckDeleteOps (contextMap : List (String × Context)) (world : String) :
    Option (List Op) :=
  if world = "default" then
    (dictGet contextMap world).map fun ctx => serverDeleteOps ctx world
  else
    match dictGet contextMap "default", dictGet contextMap world with
    | some dctx, some ctx =>
      let defaultKeys := dictKeys dctx.groups
      let worldSpecific := ((dictKeys ctx.groups).filter
        (fun g => !decide (g ∈ defaultKeys))).dedup
      some ((sortByUpper defaultKeys).map (fun g => Op.clearPerms g world)
        ++ (sortByUpper worldSpecific).map fun g => Op.deleteGroup g world)
    | _, _ => none

/-- A group inheritance graph: map from group name to its parent list. -/
abbrev Graph := List (String × List String)

/-- Keys of a graph. -/
def gkeys (edges : Graph) : List String := dictKeys edges

/-- Parent list of a node (empty for a node without a binding). -/
def parentsOf (edges : Graph) (g : String) : List String :=
  (dictGet edges g).getD []

/-- DFS state: the seen set and the postorder result, both as lists. -/
abbrev St := List String × List String

/-- Loop body of depthFirstPostOrderTraversal over the dependency list: skip
seen dependencies; otherwise mark the dependency seen, recurse via rec, and
then visit (append) the dependency. -/
def dfsList (rec : String → St → Option St) : List String → St → Option St
  | [], st => some st
  | d :: ds, (seen, res) =>
    if d ∈ seen then dfsList rec ds (seen, res)
    else
      match rec d (d :: seen, res) with
      | none => none
      | some (seen', res') => dfsList rec ds (seen', res' ++ [d])

/-- mkgroups.py depthFirstPostOrderTraversal with explicit fuel bounding the
recursion depth; fuel exhaustion or a missing edges key (Python KeyError)
yields none. -/
def dfsNodeF (edges : Graph) (fuel : Nat) : String → St → Option St :=
  Nat.rec (motive := fun _ => String → St → Option St)
    (fun _ _ => none)
    (fun _ ih node st =>
      match dictGet edges node with
      | none => none
      | some deps =>
        match dfsList ih deps st with
        | none => none
        | some (seen, res) =>
          if node ∈ seen then some (seen, res) else some (node :: seen, res ++ [node]))
    fuel

/-- Fuel that always suffices for a graph whose parent lists mention only
keys: one more than the number of keys. -/
def dfsFuel (edges : Graph) : Nat := edges.length + 1

/-- Root loop of naturallyOrderedGroups: run the DFS from every root in
order, threading the seen set and result. -/
def dfsRoots (edges : Graph) : List String → St → Option St
  | [], st => some st
  | r :: rs, st =>
    match dfsNodeF edges (dfsFuel edges) r st with
    | none => none
    | some st' => dfsRoots edges rs st'

/-- mkgroups.py naturallyOrderedGroups: all groups in most-general-first
order, with roots pre-sorted case-insensitively. -/
def naturallyOrderedGroups (edges : Graph) : Option (List String) :=
  (dfsRoots edges (sortByUpper (gkeys edges)) ([], [])).map Prod.snd

/-- mkgroups.py allAncestors: the postorder traversal from the group alone,
reversed, with the group itself (the first element) dropped. -/
def allAncestors (group : String) (edges : Graph) : Option (List String) :=
  (dfsNodeF edges (dfsFuel edges) group ([], [])).map fun st =>
    st.2.reverse.drop 1

/-- The inverse bPermissions token of writeModuleFiles: strip or add the
leading caret. -/
def inverseOf (perm : String) : String :=
  match perm.data with
  | '^' :: rest => ⟨rest⟩
  | _ => "^" ++ perm

/-- Ancestor scan of writeModuleFiles deciding whether a permission is kept
on a group: an ancestor holding the inverse permission keeps it (returns
true) and stops; an ancestor holding the permission itself makes it
redundant (returns false) and stops; otherwise it is kept. -/
def scanKeep (permissions : List (String × List String)) (perm inv : String) :
    List String → Bool
  | [] => true
  | a :: rest =>
    if inv ∈ (dictGet permissions a).getD [] then true
    else if perm ∈ (dictGet permissions a).getD [] then false
    else scanKeep permissions perm inv rest

/-- Permissions kept for one group by the export logic of writeModuleFiles:
the group's permissions with the redundant (inherited) ones removed. -/
def exportedPerms (ctx : Context) (g : String) : Option (List String) :=
  (allAncestors g ctx.groups).map fun anc =>
    ((dictGet ctx.permissions g).getD []).filter fun perm =>
      scanKeep ctx.permissions perm (inverseOf perm) anc

/-- One inheritance edge: p is a direct parent of g. -/
def Edge (edges : Graph) (g p : String) : Prop := p ∈ parentsOf edges g

/-- Reaches edges g x: x is g itself or a transitive parent of g. -/
def Reaches (edges : Graph) (g x : String) : Prop :=
  Relation.ReflTransGen (Edge edges) g x

/-- Ancestor edges g x: x is a transitive parent of g. -/
def Ancestor (edges : Graph) (g x : String) : Prop :=
  Relation.TransGen (Edge edges) g x

/-- Every parent named anywhere in the graph is itself a key (the invariant
established by makeContext). -/
def ClosedGraph (edges : Graph) : Prop :=
  ∀ g ∈ gkeys edges, ∀ p ∈ parentsOf edges g, p ∈ gkeys edges

instance (edges : Graph) : Decidable (ClosedGraph edges) :=
  inferInstanceAs (Decidable (∀ g ∈ gkeys edges, ∀ p ∈ parentsOf edges g, p ∈ gkeys edges))

/-- The inheritance graph has no cycle. -/
def Acyclic (edges : Graph) : Prop := ∀ g, ¬ Ancestor edges g g

/-! Helper lemmas about characters, strings, dictionaries and sorting. -/

theorem char_toNat_ofNat_valid {n : Nat} (hv : Nat.isValidChar n) :
    (Char.ofNat n).toNat = n := by
  rw [Char.ofNat, dif_pos hv]
  rfl

theorem char_toLower_eq (c : Char) :
    Char.toLower c = if c.toNat ≥ 65 ∧ c.toNat ≤ 90 then Char.ofNat (c.toNat + 32) else c := rfl

theorem char_toLower_idem (c : Char) : Char.toLower (Char.toLower c) = Char.toLower c := by
  by_cases h : c.toNat ≥ 65 ∧ c.toNat ≤ 90
  · have hv : Nat.isValidChar (c.toNat + 32) := by
      left
      omega
    have ht : (Char.ofNat (c.toNat + 32)).toNat = c.toNat + 32 :=
      char_toNat_ofNat_valid hv
    rw [char_toLower_eq c, if_pos h, char_toLower_eq, ht, if_neg (by omega)]
  · rw [char_toLower_eq c, if_neg h, char_toLower_eq c, if_neg h]

theorem char_toLower_ne_caret (c : Char) (h : c ≠ '^') : Char.toLower c ≠ '^' := by
  by_cases hc : c.toNat ≥ 65 ∧ c.toNat ≤ 90
  · rw [char_toLower_eq c, if_pos hc]
    intro he
    have h2 := char_toNat_ofNat_valid (n := c.toNat + 32) (by left; omega)
    rw [he] at h2
    have h3 : ('^'.toNat) = 94 := rfl
    omega
  · rw [char_toLower_eq c, if_neg hc]
    exact h

theorem pyLower_data (s : String) : (pyLower s).data = s.data.map Char.toLower := rfl

theorem pyLower_idem (s : String) : pyLower (pyLower s) = pyLower s := by
  apply String.ext
  rw [pyLower_data, pyLower_data, List.map_map]
  exact List.map_congr_left fun c _ => char_toLower_idem c

theorem caret_append_data (x : String) : ("^" ++ x).data = '^' :: x.data := rfl

theorem pyLower_caret_append (x : String) :
    pyLower ("^" ++ x) = "^" ++ pyLower x := by
  apply String.ext
  rw [pyLower_data, caret_append_data, caret_append_data, pyLower_data]
  simp [char_toLower_eq]

theorem parseTok_caret_append (x : String) : parseTok ("^" ++ x) = (x, false) := by
  unfold parseTok
  rw [caret_append_data]
  simp

theorem parseTok_no_caret {t : String} (h : ¬ t.data.head? = some '^') :
    parseTok t = (t, true) := by
  unfold parseTok
  rw [if_neg h]

theorem parse_true_no_caret {t n : String} (h : parseTok t = (n, true)) :
    ¬ t.data.head? = some '^' := by
  intro hc
  unfold parseTok at h
  rw [if_pos hc] at h
  exact absurd (congrArg Prod.snd h) (by simp)

theorem parseTok_pyLower_of_parse_true {x : String} (h : parseTok x = (x, true)) :
    parseTok (pyLower x) = (pyLower x, true) := by
  have hnc := parse_true_no_caret h
  apply parseTok_no_caret
  rw [pyLower_data]
  rcases x with ⟨l⟩
  rcases l with _ | ⟨c, rest⟩
  · simp
  · simp only [List.map_cons, List.head?_cons, Option.some.injEq] at *
    exact char_toLower_ne_caret c fun he => hnc (by rw [he])

theorem dictKeys_nil {α : Type} : dictKeys (α := α) [] = [] := rfl

theorem dictKeys_cons {α : Type} (k : String) (v : α) (rest : List (String × α)) :
    dictKeys ((k, v) :: rest) = k :: dictKeys rest := rfl

theorem dictGet_dictSet {α : Type} (m : List (String × α)) (k : String) (v : α)
    (k' : String) :
    dictGet (dictSet m k v) k' = if k = k' then some v else dictGet m k' := by
  induction m with
  | nil => simp [dictSet, dictGet]
  | cons kv rest ih =>
    rcases kv with ⟨k0, v0⟩
    by_cases h0 : k0 = k
    · subst h0
      simp only [dictSet, if_pos rfl, dictGet]
      split_ifs <;> rfl
    · simp only [dictSet, if_neg h0, dictGet, ih]
      split_ifs with hA hB
      · exact absurd (hA.trans hB.symm) h0
      · rfl
      · rfl
      · rfl

theorem mem_dictKeys_of_dictGet {α : Type} {m : List (String × α)} {k : String} {v : α}
    (h : dictGet m k = some v) : k ∈ dictKeys m := by
  induction m with
  | nil => simp [dictGet] at h
  | cons kv rest ih =>
    rcases kv with ⟨k0, v0⟩
    rw [dictKeys_cons, List.mem_cons]
    by_cases h0 : k0 = k
    · exact Or.inl h0.symm
    · rw [dictGet, if_neg h0] at h
      exact Or.inr (ih h)

theorem dictGet_isSome_of_mem {α : Type} {m : List (String × α)} {k : String}
    (h : k ∈ dictKeys m) : (dictGet m k).isSome := by
  induction m with
  | nil => simp [dictKeys] at h
  | cons kv rest ih =>
    rcases kv with ⟨k0, v0⟩
    by_cases h0 : k0 = k
    · subst h0
      simp [dictGet]
    · rw [dictGet, if_neg h0]
      rw [dictKeys_cons, List.mem_cons] at h
      rcases h with h | h
      · exact absurd h.symm h0
      · exact ih h

theorem dictGet_eq_none_iff {α : Type} {m : List (String × α)} {k : String} :
    dictGet m k = none ↔ k ∉ dictKeys m := by
  constructor
  · intro h hk
    have := dictGet_isSome_of_mem hk
    rw [h] at this
    simp at this
  · intro h
    cases hg : dictGet m k with
    | none => rfl
    | some v => exact absurd (mem_dictKeys_of_dictGet hg) h

theorem mem_sortStrs {x : String} {l : List String} : x ∈ sortStrs l ↔ x ∈ l :=
  (List.perm_insertionSort strLe l).mem_iff

theorem sortStrs_sorted (l : List String) : (sortStrs l).Sorted strLe :=
  List.sorted_insertionSort strLe l

theorem sortByUpper_perm (l : List String) : (sortByUpper l).Perm l :=
  List.perm_insertionSort upperLe l

theorem mem_sortByUpper {x : String} {l : List String} : x ∈ sortByUpper l ↔ x ∈ l :=
  (sortByUpper_perm l).mem_iff

theorem sortByUpper_sorted (l : List String) : (sortByUpper l).Sorted upperLe :=
  List.sorted_insertionSort upperLe l

/-! Theory of permissionsAsBooleanMap. -/

/-- Occurs L n b: some token of L parses to node n with state b. -/
def Occurs (L : List String) (n : String) (b : Bool) : Prop :=
  ∃ t ∈ L, parseTok t = (n, b)

instance (L : List String) (n : String) (b : Bool) : Decidable (Occurs L n b) :=
  inferInstanceAs (Decidable (∃ t ∈ L, parseTok t = (n, b)))

theorem Occurs.mono {L L' : List String} {n : String} {b : Bool}
    (hsub : ∀ t ∈ L, t ∈ L') (h : Occurs L n b) : Occurs L' n b := by
  obtain ⟨t, ht, hp⟩ := h
  exact ⟨t, hsub t ht, hp⟩

theorem occurs_append {L₁ L₂ : List String} {n : String} {b : Bool} :
    Occurs (L₁ ++ L₂) n b ↔ Occurs L₁ n b ∨ Occurs L₂ n b := by
  constructor
  · rintro ⟨t, ht, hp⟩
    rcases List.mem_append.mp ht with h | h
    · exact Or.inl ⟨t, h, hp⟩
    · exact Or.inr ⟨t, h, hp⟩
  · rintro (⟨t, ht, hp⟩ | ⟨t, ht, hp⟩)
    · exact ⟨t, List.mem_append.mpr (Or.inl ht), hp⟩
    · exact ⟨t, List.mem_append.mpr (Or.inr ht), hp⟩

theorem occurs_singleton {t : String} {n : String} {b : Bool} :
    Occurs [t] n b ↔ parseTok t = (n, b) := by
  constructor
  · rintro ⟨t', ht', hp⟩
    rw [List.mem_singleton.mp ht'] at hp
    exact hp
  · intro hp
    exact ⟨t, List.mem_singleton.mpr rfl, hp⟩

/-- Main invariant lemma for the loop of permissionsAsBooleanMap: given an
accumulator that exactly reflects the processed tokens, the loop either
reports a conflicting node of the whole token list (naming the group), or
returns a map exactly reflecting the whole token list. -/
theorem pamGo_spec (group : String) :
    ∀ (rest : List String) (acc : List (String × Bool)) (processed : List String),
    (∀ n b, dictGet acc n = some b ↔ Occurs processed n b) →
    (∃ e, pamGo group rest acc = .error e ∧ e.1 = group
        ∧ Occurs (processed ++ rest) e.2 true ∧ Occurs (processed ++ rest) e.2 false)
    ∨ (∃ m, pamGo group rest acc = .ok m
        ∧ ∀ n b, dictGet m n = some b ↔ Occurs (processed ++ rest) n b) := by
  intro rest
  induction rest with
  | nil =>
    intro acc processed hinv
    refine Or.inr ⟨acc, rfl, ?_⟩
    simpa using hinv
  | cons bp rest ih =>
    intro acc processed hinv
    rcases hp : parseTok bp with ⟨n₀, b₀⟩
    by_cases hc : dictGet acc n₀ = some (!b₀)
    · left
      have hold : Occurs processed n₀ (!b₀) := (hinv n₀ (!b₀)).mp hc
      have hnew : Occurs (processed ++ bp :: rest) n₀ b₀ :=
        ⟨bp, by simp, hp⟩
      have hold' : Occurs (processed ++ bp :: rest) n₀ (!b₀) :=
        hold.mono fun t ht => by simp [ht]
      refine ⟨(group, n₀), ?_, rfl, ?_, ?_⟩
      · simp [pamGo, hp, hc]
      · cases b₀
        · simpa using hold'
        · simpa using hnew
      · cases b₀
        · simpa using hnew
        · simpa using hold'
    · have hstep : pamGo group (bp :: rest) acc = pamGo group rest (dictSet acc n₀ b₀) := by
        simp [pamGo, hp, hc]
      have hinv' : ∀ n b, dictGet (dictSet acc n₀ b₀) n = some b ↔
          Occurs (processed ++ [bp]) n b := by
        intro n b
        rw [dictGet_dictSet, occurs_append, occurs_singleton, hp]
        by_cases hn : n₀ = n
        · subst hn
          rw [if_pos rfl]
          constructor
          · intro hsb
            right
            injection hsb with hb
            rw [hb]
          · rintro (hocc | hpair)
            · have := (hinv n₀ b).mpr hocc
              have hb : b = b₀ := by
                by_contra hne
                apply hc
                cases b <;> cases b₀ <;> simp_all
              rw [hb]
            · injection hpair with h1 h2
              rw [h2]
        · rw [if_neg hn]
          rw [hinv n b]
          constructor
          · exact fun h => Or.inl h
          · rintro (h | hpair)
            · exact h
            · injection hpair with h1 h2
              exact absurd h1 hn
      have := ih (dictSet acc n₀ b₀) (processed ++ [bp]) hinv'
      rw [List.append_assoc] at this
      simp only [List.singleton_append] at this
      rw [hstep]
      exact this

/-- Specialisation of pamGo_spec to permissionsAsBooleanMap itself. -/
theorem pam_spec (perms : List String) (group : String) :
    (∃ e, permissionsAsBooleanMap perms group = .error e ∧ e.1 = group
        ∧ Occurs (lowerArray perms) e.2 true ∧ Occurs (lowerArray perms) e.2 false)
    ∨ (∃ m, permissionsAsBooleanMap perms group = .ok m
        ∧ ∀ n b, dictGet m n = some b ↔ Occurs (lowerArray perms) n b) := by
  have h := pamGo_spec group (lowerArray perms) [] []
    (by intro n b; simp [dictGet, Occurs])
  simpa [permissionsAsBooleanMap] using h

/-- Claim C10: permissionsAsBooleanMap fails exactly when the lower-cased
token list contains some node with both polarities; a list repeating a node
with one polarity (case variants included) is accepted and maps the node to
its common polarity. -/
theorem claim_C10 (perms : List String) (group : String) :
    ((∃ e, permissionsAsBooleanMap perms group = .error e)
      ↔ ∃ n, Occurs (lowerArray perms) n true ∧ Occurs (lowerArray perms) n false)
    ∧ ∀ m, permissionsAsBooleanMap perms group = .ok m →
        ∀ n b, dictGet m n = some b ↔ Occurs (lowerArray perms) n b := by
  rcases pam_spec perms group with ⟨e, he, hg, ht, hf⟩ | ⟨m, hm, hiff⟩
  · constructor
    · constructor
      · intro _
        exact ⟨e.2, ht, hf⟩
      · intro _
        exact ⟨e, he⟩
    · intro m' hm'
      rw [he] at hm'
      exact absurd hm' (by simp)
  · constructor
    · constructor
      · rintro ⟨e, he⟩
        rw [hm] at he
        exact absurd he (by simp)
      · rintro ⟨n, hT, hF⟩
        have h1 := (hiff n true).mpr hT
        have h2 := (hiff n false).mpr hF
        rw [h1] at h2
        exact absurd h2 (by simp)
    · intro m' hm'
      rw [hm] at hm'
      injection hm' with hmm
      subst hmm
      exact hiff

theorem claim_C10_witness :
    dictGet [("a.b", true), ("x", true)] "a.b" = some true :=
  ((claim_C10 ["A.b", "a.B", "x", "x"] "g").2 [("a.b", true), ("x", true)] rfl
    "a.b" true).mpr (by decide)

/-- Claim C7: when a merged raw permission list contains both a node and its
caret-negation, interpreting it with permissionsAsBooleanMap fails with a
conflicting-permission error that names the group and a node present with
both polarities. -/
theorem claim_C7 (a b : Option (List String)) (group x : String)
    (hx : x ∈ mergePermissions a b)
    (hnx : ("^" ++ x) ∈ mergePermissions a b)
    (hpos : parseTok x = (x, true)) :
    ∃ y, permissionsAsBooleanMap (mergePermissions a b) group = .error (group, y)
      ∧ Occurs (lowerArray (mergePermissions a b)) y true
      ∧ Occurs (lowerArray (mergePermissions a b)) y false := by
  rcases pam_spec (mergePermissions a b) group with ⟨e, he, hg, ht, hf⟩ | ⟨m, hm, hiff⟩
  · refine ⟨e.2, ?_, ht, hf⟩
    rcases e with ⟨g1, y⟩
    cases hg
    exact he
  · exfalso
    have hT : Occurs (lowerArray (mergePermissions a b)) (pyLower x) true :=
      ⟨pyLower x, List.mem_map_of_mem pyLower hx, parseTok_pyLower_of_parse_true hpos⟩
    have hF : Occurs (lowerArray (mergePermissions a b)) (pyLower x) false :=
      ⟨pyLower ("^" ++ x), List.mem_map_of_mem pyLower hnx, by
        rw [pyLower_caret_append]
        exact parseTok_caret_append (pyLower x)⟩
    have h1 := (hiff (pyLower x) true).mpr hT
    have h2 := (hiff (pyLower x) false).mpr hF
    rw [h1] at h2
    exact absurd h2 (by simp)

theorem claim_C7_witness :
    "x.y" ∈ mergePermissions (some ["x.y"]) (some ["^x.y"])
    ∧ ("^" ++ "x.y") ∈ mergePermissions (some ["x.y"]) (some ["^x.y"])
    ∧ parseTok "x.y" = ("x.y", true)
    ∧ ∃ y, permissionsAsBooleanMap (mergePermissions (some ["x.y"]) (some ["^x.y"])) "A"
          = .error ("A", y)
        ∧ Occurs (lowerArray (mergePermissions (some ["x.y"]) (some ["^x.y"]))) y true
        ∧ Occurs (lowerArray (mergePermissions (some ["x.y"]) (some ["^x.y"]))) y false :=
  ⟨by decide, by decide, by decide,
    claim_C7 (some ["x.y"]) (some ["^x.y"]) "A" "x.y" (by decide) (by decide) (by decide)⟩

/-- Claim C2: for conflict-free before and after lists, differencePermissions
is empty when the two tri-state maps agree; its members are exactly the
after-entries that differ from before (so a node present only in before
contributes nothing); a changed denied after-value is emitted caret-prefixed;
and the result is sorted. -/
theorem claim_C2 (before after : List String) (group : String)
    (bm am : List (String × Bool))
    (hb : permissionsAsBooleanMap before group = .ok bm)
    (ha : permissionsAsBooleanMap after group = .ok am) :
    ∃ r, differencePermissions before after group = .ok r
      ∧ ((∀ n, dictGet bm n = dictGet am n) → r = [])
      ∧ (∀ x, x ∈ r ↔ ∃ n av, dictGet am n = some av ∧ ¬ dictGet bm n = some av
            ∧ x = (if av then n else "^" ++ n))
      ∧ (∀ n, dictGet am n = some false → ¬ dictGet bm n = some false → ("^" ++ n) ∈ r)
      ∧ List.Sorted strLe r := by
  have hd : differencePermissions before after group =
      .ok (sortStrs (((dictKeys bm ++ dictKeys am).dedup).filterMap fun node =>
        match dictGet am node with
        | none => none
        | some av =>
          if dictGet bm node = some av then none
          else some (if av then node else "^" ++ node))) := by
    rw [differencePermissions, hb, ha]
    rfl
  refine ⟨_, hd, ?_, ?_, ?_, ?_⟩
  · intro hsame
    have hnil : (((dictKeys bm ++ dictKeys am).dedup).filterMap fun node =>
        match dictGet am node with
        | none => none
        | some av =>
          if dictGet bm node = some av then none
          else some (if av then node else "^" ++ node)) = [] := by
      rw [List.filterMap_eq_nil_iff]
      intro node _
      cases hav : dictGet am node with
      | none => rfl
      | some av =>
        have : dictGet bm node = some av := by rw [hsame, hav]
        simp [this]
    rw [hnil]
    rfl
  · intro x
    rw [mem_sortStrs, List.mem_filterMap]
    constructor
    · rintro ⟨node, _, hf⟩
      cases hav : dictGet am node with
      | none =>
        rw [hav] at hf
        simp only [] at hf
        exact absurd hf (by simp)
      | some av =>
        rw [hav] at hf
        simp only [] at hf
        by_cases hbv : dictGet bm node = some av
        · rw [if_pos hbv] at hf
          exact absurd hf (by simp)
        · rw [if_neg hbv] at hf
          injection hf with hf
          exact ⟨node, av, hav, hbv, hf.symm⟩
    · rintro ⟨n, av, hav, hbv, hx⟩
      refine ⟨n, ?_, ?_⟩
      · rw [List.mem_dedup, List.mem_append]
        exact Or.inr (mem_dictKeys_of_dictGet hav)
      · rw [hav]
        simp only []
        rw [if_neg hbv, hx]
  · intro n hav hbv
    rw [mem_sortStrs, List.mem_filterMap]
    refine ⟨n, ?_, ?_⟩
    · rw [List.mem_dedup, List.mem_append]
      exact Or.inr (mem_dictKeys_of_dictGet hav)
    · rw [hav]
      simp only []
      rw [if_neg hbv]
      rfl
  · exact sortStrs_sorted _

theorem claim_C2_witness :
    ∃ r, differencePermissions ["a", "b"] ["a", "c"] "G" = .ok r
      ∧ List.Sorted strLe r := by
  obtain ⟨r, hr, -, -, -, hs⟩ := claim_C2 ["a", "b"] ["a", "c"] "G"
    [("a", true), ("b", true)] [("a", true), ("c", true)] rfl rfl
  exact ⟨r, hr, hs⟩

/-- Claim C9: mergePermissions is commutative; merging a list with itself
denotes the same set as the lower-cased list; and the output is sorted with
every element lower-cased (fixed by pyLower). -/
theorem claim_C9 (a b : Option (List String)) :
    mergePermissions a b = mergePermissions b a
    ∧ (∀ x, x ∈ mergePermissions a a ↔ x ∈ lowerArray (a.getD []))
    ∧ List.Sorted strLe (mergePermissions a b)
    ∧ ∀ s ∈ mergePermissions a b, pyLower s = s := by
  refine ⟨?_, ?_, sortStrs_sorted _, ?_⟩
  · apply List.eq_of_perm_of_sorted ?_ (sortStrs_sorted _) (sortStrs_sorted _)
    have h1 := List.perm_insertionSort strLe
      ((lowerArray (a.getD []) ++ lowerArray (b.getD [])).dedup)
    have h2 := List.perm_insertionSort strLe
      ((lowerArray (b.getD []) ++ lowerArray (a.getD [])).dedup)
    have hmid : ((lowerArray (a.getD []) ++ lowerArray (b.getD [])).dedup).Perm
        ((lowerArray (b.getD []) ++ lowerArray (a.getD [])).dedup) := by
      rw [List.perm_ext_iff_of_nodup (List.nodup_dedup _) (List.nodup_dedup _)]
      intro x
      simp only [List.mem_dedup, List.mem_append]
      exact Or.comm
    exact (h1.trans hmid).trans h2.symm
  · intro x
    rw [mergePermissions, mem_sortStrs, List.mem_dedup, List.mem_append, or_self]
  · intro s hs
    rw [mergePermissions, mem_sortStrs, List.mem_dedup, List.mem_append] at hs
    have hex : ∃ t, s = pyLower t := by
      rcases hs with hs | hs <;>
        · obtain ⟨t, _, ht⟩ := List.mem_map.mp hs
          exact ⟨t, ht.symm⟩
    obtain ⟨t, ht⟩ := hex
    rw [ht, pyLower_idem]

theorem claim_C9_witness :
    mergePermissions (some ["B", "a"]) none = mergePermissions none (some ["B", "a"])
    ∧ pyLower "a" = "a" :=
  ⟨(claim_C9 (some ["B", "a"]) none).1,
    (claim_C9 (some ["B", "a"]) none).2.2.2 "a" (by decide)⟩

/-! Theory of makeContext (claim C6). -/

theorem one_lt_length_of_two_mem {α : Type} {l : List α} {a b : α}
    (ha : a ∈ l) (hb : b ∈ l) (hne : a ≠ b) : 1 < l.length := by
  induction l with
  | nil => simp at ha
  | cons x xs ih =>
    rcases List.mem_cons.mp ha with rfl | ha'
    · rcases List.mem_cons.mp hb with rfl | hb'
      · exact absurd rfl hne
      · have : 0 < xs.length := List.length_pos.mpr (List.ne_nil_of_mem hb')
        simp only [List.length_cons]
        omega
    · have : 0 < xs.length := List.length_pos.mpr (List.ne_nil_of_mem ha')
      simp only [List.length_cons]
      omega

theorem dictKeys_append {α : Type} (a b : List (String × α)) :
    dictKeys (a ++ b) = dictKeys a ++ dictKeys b := List.map_append _ _ _

theorem mem_keys_setdefaults {α : Type} (d : α) :
    ∀ (ks : List String) (m : List (String × α)) (g : String),
    g ∈ dictKeys m ∨ g ∈ ks → g ∈ dictKeys (setdefaults m ks d) := by
  intro ks
  induction ks with
  | nil =>
    intro m g hg
    rcases hg with hg | hg
    · exact hg
    · simp at hg
  | cons k rest ih =>
    intro m g hg
    rw [setdefaults]
    apply ih
    by_cases hk : (dictGet m k).isSome
    · rw [if_pos hk]
      rcases hg with hg | hg
      · exact Or.inl hg
      · rcases List.mem_cons.mp hg with rfl | hg'
        · obtain ⟨v, hv⟩ := Option.isSome_iff_exists.mp hk
          exact Or.inl (mem_dictKeys_of_dictGet hv)
        · exact Or.inr hg'
    · rw [if_neg hk]
      rcases hg with hg | hg
      · exact Or.inl (by rw [dictKeys_append]; exact List.mem_append.mpr (Or.inl hg))
      · rcases List.mem_cons.mp hg with rfl | hg'
        · exact Or.inl (by rw [dictKeys_append]; simp [dictKeys])
        · exact Or.inr hg'

theorem dictGet_append {α : Type} :
    ∀ (m1 m2 : List (String × α)) (g : String),
    dictGet (m1 ++ m2) g = if (dictGet m1 g).isSome then dictGet m1 g else dictGet m2 g := by
  intro m1
  induction m1 with
  | nil =>
    intro m2 g
    simp [dictGet]
  | cons kv rest ih =>
    intro m2 g
    rcases kv with ⟨k, v⟩
    by_cases hk : k = g
    · rw [List.cons_append, dictGet, if_pos hk, dictGet, if_pos hk]
      rfl
    · rw [List.cons_append, dictGet, if_neg hk, dictGet, if_neg hk, ih]

/-- Value-level behaviour of the setdefault loop: an existing binding is
kept unchanged, a key of ks without a binding gets the default, and other
keys stay absent. -/
theorem dictGet_setdefaults {α : Type} (d : α) :
    ∀ (ks : List String) (m : List (String × α)) (g : String),
    dictGet (setdefaults m ks d) g =
      if (dictGet m g).isSome then dictGet m g
      else if g ∈ ks then some d else none := by
  intro ks
  induction ks with
  | nil =>
    intro m g
    rw [setdefaults]
    cases h : dictGet m g with
    | none => simp
    | some v => simp
  | cons k rest ih =>
    intro m g
    rw [setdefaults]
    by_cases hk : (dictGet m k).isSome
    · rw [if_pos hk, ih]
      by_cases hg : (dictGet m g).isSome
      · rw [if_pos hg, if_pos hg]
      · rw [if_neg hg, if_neg hg]
        have hgk : g ≠ k := by
          intro he
          rw [he] at hg
          exact hg hk
        by_cases hgr : g ∈ rest
        · rw [if_pos hgr, if_pos (List.mem_cons_of_mem _ hgr)]
        · rw [if_neg hgr, if_neg (by simp [hgk, hgr])]
    · rw [if_neg hk, ih]
      have happ : dictGet (m ++ [(k, d)]) g =
          if (dictGet m g).isSome then dictGet m g
          else if k = g then some d else none := by
        rw [dictGet_append]
        by_cases hg : (dictGet m g).isSome
        · rw [if_pos hg, if_pos hg]
        · rw [if_neg hg, if_neg hg]
          simp [dictGet]
      rw [happ]
      by_cases hg : (dictGet m g).isSome
      · simp [hg]
      · have hnone : dictGet m g = none := Option.not_isSome_iff_eq_none.mp hg
        by_cases hkg : k = g
        · subst hkg
          simp [hnone]
        · have hgk : g ≠ k := fun he => hkg he.symm
          simp [hnone, hkg, hgk]

theorem nameConflicts_spec (A : List String) (hnd : A.Nodup) :
    (nameConflicts A ≠ [] ↔ ∃ g ∈ A, ∃ h ∈ A, g ≠ h ∧ pyLower g = pyLower h)
    ∧ (∀ g ∈ A, ∀ h ∈ A, g ≠ h → pyLower g = pyLower h →
        (pyLower g, A.filter fun g' => pyLower g' = pyLower g) ∈ nameConflicts A) := by
  constructor
  · constructor
    · intro hne
      obtain ⟨x, hx⟩ := List.exists_mem_of_ne_nil _ hne
      obtain ⟨c, hc, hfc⟩ := List.mem_filterMap.mp hx
      by_cases hlen : 1 < (A.filter fun g => pyLower g = c).length
      · rcases hms : A.filter fun g => pyLower g = c with _ | ⟨g, tail⟩
        · rw [hms] at hlen
          simp at hlen
        · rcases tail with _ | ⟨h, rest⟩
          · rw [hms] at hlen
            simp at hlen
          · have hgA : g ∈ A.filter fun g' => pyLower g' = c := by
              rw [hms]
              simp
            have hhA : h ∈ A.filter fun g' => pyLower g' = c := by
              rw [hms]
              simp
            have hnodup : (A.filter fun g' => pyLower g' = c).Nodup := hnd.filter _
            have hne' : g ≠ h := by
              rw [hms] at hnodup
              rcases List.nodup_cons.mp hnodup with ⟨hgnot, _⟩
              intro he
              exact hgnot (he ▸ List.mem_cons_self _ _)
            have hg' := List.mem_filter.mp hgA
            have hh' := List.mem_filter.mp hhA
            exact ⟨g, hg'.1, h, hh'.1, hne',
              by
                have h1 : pyLower g = c := by simpa using hg'.2
                have h2 : pyLower h = c := by simpa using hh'.2
                rw [h1, h2]⟩
      · exfalso
        simp only [nameConflicts] at hfc
        rw [if_neg hlen] at hfc
        exact absurd hfc (by simp)
    · rintro ⟨g, hg, h, hh, hne, hlow⟩
      intro hnil
      have hc : pyLower g ∈ nameClasses A :=
        List.mem_dedup.mpr (List.mem_map_of_mem pyLower hg)
      have hfc := (List.filterMap_eq_nil_iff.mp hnil) (pyLower g) hc
      have hgm : g ∈ A.filter fun g' => pyLower g' = pyLower g :=
        List.mem_filter.mpr ⟨hg, by simp⟩
      have hhm : h ∈ A.filter fun g' => pyLower g' = pyLower g :=
        List.mem_filter.mpr ⟨hh, by simp [hlow]⟩
      have hlen : 1 < (A.filter fun g' => pyLower g' = pyLower g).length :=
        one_lt_length_of_two_mem hgm hhm hne
      rw [if_pos hlen] at hfc
      exact (Option.some_ne_none _ hfc).elim
  · intro g hg h hh hne hlow
    have hc : pyLower g ∈ nameClasses A :=
      List.mem_dedup.mpr (List.mem_map_of_mem pyLower hg)
    have hgm : g ∈ A.filter fun g' => pyLower g' = pyLower g :=
      List.mem_filter.mpr ⟨hg, by simp⟩
    have hhm : h ∈ A.filter fun g' => pyLower g' = pyLower g :=
      List.mem_filter.mpr ⟨hh, by simp [hlow]⟩
    have hlen : 1 < (A.filter fun g' => pyLower g' = pyLower g).length :=
      one_lt_length_of_two_mem hgm hhm hne
    apply List.mem_filterMap.mpr
    refine ⟨pyLower g, hc, ?_⟩
    rw [if_pos hlen]

/-- Claim C6: makeContext fails exactly when the closure of mentioned group
names contains two distinct spellings of the same case-insensitive name; the
error lists every distinct spelling of each conflicted name; otherwise every
mentioned group gets an entry in the groups and in the permissions maps,
keeping its previous value and receiving the empty list when it was
previously absent. -/
theorem claim_C6 (groups : List (String × List String)) (weights : List (String × Int))
    (permissions : List (String × List String)) :
    ((∃ e, makeContext groups weights permissions = .error e) ↔
      ∃ g ∈ allMentioned groups weights permissions,
        ∃ h ∈ allMentioned groups weights permissions, g ≠ h ∧ pyLower g = pyLower h)
    ∧ (∀ e, makeContext groups weights permissions = .error e →
        ∀ g ∈ allMentioned groups weights permissions,
          ∀ h ∈ allMentioned groups weights permissions, g ≠ h → pyLower g = pyLower h →
            (pyLower g, (allMentioned groups weights permissions).filter
                fun g' => pyLower g' = pyLower g) ∈ e)
    ∧ ∀ ctx, makeContext groups weights permissions = .ok ctx →
        ∀ g ∈ allMentioned groups weights permissions,
          g ∈ dictKeys ctx.groups ∧ g ∈ dictKeys ctx.permissions
          ∧ dictGet ctx.groups g = some ((dictGet groups g).getD [])
          ∧ dictGet ctx.permissions g = some ((dictGet permissions g).getD []) := by
  have hnd : (allMentioned groups weights permissions).Nodup := List.nodup_dedup _
  have hspec := nameConflicts_spec (allMentioned groups weights permissions) hnd
  refine ⟨?_, ?_, ?_⟩
  · rw [← hspec.1]
    constructor
    · rintro ⟨e, he⟩
      intro hnil
      rw [makeContext, if_pos hnil] at he
      exact absurd he (by simp)
    · intro hne
      rw [makeContext, if_neg hne]
      exact ⟨_, rfl⟩
  · intro e he g hg h hh hne hlow
    by_cases hnil : nameConflicts (allMentioned groups weights permissions) = []
    · rw [makeContext, if_pos hnil] at he
      exact absurd he (by simp)
    · rw [makeContext, if_neg hnil] at he
      injection he with he
      rw [← he]
      exact hspec.2 g hg h hh hne hlow
  · intro ctx hctx g hg
    by_cases hnil : nameConflicts (allMentioned groups weights permissions) = []
    · rw [makeContext, if_pos hnil] at hctx
      injection hctx with hctx
      have h3 : dictGet (setdefaults groups (allMentioned groups weights permissions) []) g
          = some ((dictGet groups g).getD []) := by
        rw [dictGet_setdefaults]
        cases hgv : dictGet groups g with
        | none => simp [hg]
        | some v => simp
      have h4 : dictGet (setdefaults permissions (allMentioned groups weights permissions) []) g
          = some ((dictGet permissions g).getD []) := by
        rw [dictGet_setdefaults]
        cases hgv : dictGet permissions g with
        | none => simp [hg]
        | some v => simp
      rw [← hctx]
      exact ⟨mem_keys_setdefaults [] _ groups g (Or.inr hg),
        mem_keys_setdefaults [] _ permissions g (Or.inr hg), h3, h4⟩
    · rw [makeContext, if_neg hnil] at hctx
      exact absurd hctx (by simp)

theorem claim_C6_witness :
    (∃ e, makeContext (mergeDicts [("Admin", [])] [("admin", [])]
        (fun _ x y => mergeGroups x y)) [] [] = .error e)
    ∧ ∃ ctx, makeContext [("B", ["a"])] [] [] = .ok ctx
        ∧ dictGet ctx.groups "a" = some [] := by
  constructor
  · exact (claim_C6 (mergeDicts [("Admin", [])] [("admin", [])]
        (fun _ x y => mergeGroups x y)) [] []).1.mpr
      ⟨"Admin", by decide, "admin", by decide, by decide, by decide⟩
  · have h := (claim_C6 [("B", ["a"])] [] []).2.2
      ⟨[("B", ["a"]), ("a", [])], [], [("B", []), ("a", [])]⟩ rfl "a" (by decide)
    exact ⟨⟨[("B", ["a"]), ("a", [])], [], [("B", []), ("a", [])]⟩, rfl,
      h.2.2.1.trans (by decide)⟩

/-! Theory of the Server operation sequences (claims C3, C4, C8). -/

/-- An operation is a parent-add for the given group. -/
def isParentOpFor (g : String) : Op → Bool
  | Op.addParent g' _ _ => g' = g
  | _ => false

/-- An operation creates or deletes a group whose name is case-insensitively
equal to default. -/
def badDefaultOp : Op → Bool
  | Op.createGroup g _ => pyLower g = "default"
  | Op.deleteGroup g _ => pyLower g = "default"
  | _ => false

theorem permDiffOps_shape (dctx ctx : Context) (world : String) :
    ∀ (gs : List String) (ops : List Op),
    permDiffOps dctx ctx world gs = some ops →
    ∀ op ∈ ops, ∃ a p w, op = Op.addPerm a p w := by
  intro gs
  induction gs with
  | nil =>
    intro ops hops op hop
    rw [permDiffOps] at hops
    injection hops with hops
    rw [← hops] at hop
    simp at hop
  | cons g rest ih =>
    intro ops hops op hop
    rw [permDiffOps] at hops
    rcases hdp : differencePermissions ((dictGet dctx.permissions g).getD [])
        ((dictGet ctx.permissions g).getD []) g with e | changed
    · rw [hdp] at hops
      simp at hops
    · rw [hdp] at hops
      simp only [] at hops
      rcases hrest : permDiffOps dctx ctx world rest with _ | restOps
      · rw [hrest] at hops
        simp at hops
      · rw [hrest] at hops
        simp only [] at hops
        injection hops with hops
        rw [← hops] at hop
        rcases List.mem_append.mp hop with hm | hm
        · obtain ⟨p, _, rfl⟩ := List.mem_map.mp hm
          exact ⟨g, p, world, rfl⟩
        · exact ih restOps hrest op hm

theorem filter_flatten_eq_seg (p : Op → Bool) (f : String → List Op) :
    ∀ (ns : List String) (g : String), ns.Nodup → g ∈ ns →
    (∀ op ∈ f g, p op = true) →
    (∀ g' ∈ ns, g' ≠ g → ∀ op ∈ f g', p op = false) →
    ((ns.map f).flatten.filter p) = f g := by
  intro ns
  induction ns with
  | nil =>
    intro g _ hg
    simp at hg
  | cons n rest ih =>
    intro g hnd hg hall hothers
    rw [List.map_cons, List.flatten_cons, List.filter_append]
    rcases List.mem_cons.mp hg with rfl | hg'
    · rw [List.filter_eq_self.mpr hall]
      have hrest : ((rest.map f).flatten.filter p) = [] := by
        rw [List.filter_eq_nil_iff]
        intro op hop
        obtain ⟨l, hl, hopl⟩ := List.mem_flatten.mp hop
        obtain ⟨g', hg'', rfl⟩ := List.mem_map.mp hl
        have hne : g' ≠ g := fun he => ((List.nodup_cons.mp hnd).1 (he ▸ hg''))
        simp [hothers g' (List.mem_cons_of_mem _ hg'') hne op hopl]
      rw [hrest, List.append_nil]
    · have hne : n ≠ g := fun he => (List.nodup_cons.mp hnd).1 (he ▸ hg')
      rw [List.filter_eq_nil_iff.mpr
        (fun op hop => by simp [hothers n (List.mem_cons_self _ _) hne op hop])]
      rw [List.nil_append]
      exact ih g (List.nodup_cons.mp hnd).2 hg' hall
        fun g' hg'' => hothers g' (List.mem_cons_of_mem _ hg'')

theorem luckCreateOps_shape (dctx ctx : Context) (world : String) :
    ∀ op ∈ luckCreateOps dctx ctx world,
      ∃ g, op = Op.createGroup g world ∧ ¬ pyLower g = "default"
        ∧ g ∈ dictKeys ctx.groups ∧ g ∉ dictKeys dctx.groups := by
  intro op hop
  obtain ⟨g, hg, hf⟩ := List.mem_filterMap.mp hop
  rw [mem_sortByUpper, List.mem_dedup, List.mem_filter] at hg
  by_cases hdef : pyLower g ≠ "default"
  · rw [if_pos hdef] at hf
    injection hf with hf
    exact ⟨g, hf.symm, hdef, hg.1, by simpa using hg.2⟩
  · rw [if_neg hdef] at hf
    simp at hf

theorem luckWeightOps_shape (dctx ctx : Context) (world : String) :
    ∀ op ∈ luckWeightOps dctx ctx world, ∃ g w, op = Op.setGroupWeight g w world := by
  intro op hop
  obtain ⟨g, _, hf⟩ := List.mem_filterMap.mp hop
  rcases hw : dictGet ctx.weights g with _ | w
  · rw [hw] at hf
    simp at hf
  · rw [hw] at hf
    simp only [] at hf
    by_cases hne : some w ≠ dictGet dctx.weights g
    · rw [if_pos hne] at hf
      injection hf with hf
      exact ⟨g, some w, hf.symm⟩
    · rw [if_neg hne] at hf
      simp at hf

theorem luckParentOps_shape (dctx ctx : Context) (world : String) :
    ∀ op ∈ luckParentOps dctx ctx world, ∃ g p, op = Op.addParent g p world := by
  intro op hop
  obtain ⟨l, hl, hopl⟩ := List.mem_flatten.mp hop
  obtain ⟨g, _, rfl⟩ := List.mem_map.mp hl
  by_cases hne : dictGet ctx.groups g ≠ dictGet dctx.groups g
  · rw [if_pos hne] at hopl
    obtain ⟨p, _, rfl⟩ := List.mem_map.mp hopl
    exact ⟨g, p, rfl⟩
  · rw [if_neg hne] at hopl
    simp at hopl

/-- Decomposition of luckUpdateOps for a non-default world. -/
theorem luckUpdateOps_eq (contextMap : List (String × Context)) (world : String)
    (dctx ctx : Context) (ops : List Op)
    (hw : world ≠ "default")
    (hd : dictGet contextMap "default" = some dctx)
    (hc : dictGet contextMap world = some ctx)
    (hops : luckUpdateOps contextMap world = some ops) :
    ∃ permOps, permDiffOps dctx ctx world (sortByUpper (dictKeys ctx.groups)) = some permOps
      ∧ ops = luckCreateOps dctx ctx world ++ luckWeightOps dctx ctx world
          ++ luckParentOps dctx ctx world ++ permOps := by
  rw [luckUpdateOps, if_neg hw, hd, hc] at hops
  simp only [] at hops
  rcases hperm : permDiffOps dctx ctx world (sortByUpper (dictKeys ctx.groups))
      with _ | permOps
  · rw [hperm] at hops
    simp at hops
  · rw [hperm] at hops
    simp only [] at hops
    injection hops with hops
    exact ⟨permOps, rfl, hops.symm⟩

/-- Claim C3 (amended): for a non-default world, the parent-add operations
emitted for a group g are all of g's parents, in order, exactly when g's
parent list differs from the default context's entry as an ordered list
(Python list equality, with a missing entry distinct from every list), and
nothing otherwise. -/
theorem claim_C3_amended (contextMap : List (String × Context)) (world : String)
    (dctx ctx : Context) (ops : List Op)
    (hw : world ≠ "default")
    (hd : dictGet contextMap "default" = some dctx)
    (hc : dictGet contextMap world = some ctx)
    (hnd : (dictKeys ctx.groups).Nodup)
    (hops : luckUpdateOps contextMap world = some ops) :
    ∀ g ∈ dictKeys ctx.groups,
      ops.filter (isParentOpFor g)
        = (if dictGet ctx.groups g ≠ dictGet dctx.groups g then
            ((dictGet ctx.groups g).getD []).map fun p => Op.addParent g p world
          else []) := by
  intro g hg
  obtain ⟨permOps, hperm, hdecomp⟩ := luckUpdateOps_eq contextMap world dctx ctx ops
    hw hd hc hops
  rw [hdecomp, List.filter_append, List.filter_append, List.filter_append]
  have hcreate : (luckCreateOps dctx ctx world).filter (isParentOpFor g) = [] := by
    rw [List.filter_eq_nil_iff]
    intro op hop
    obtain ⟨g', rfl, -⟩ := luckCreateOps_shape dctx ctx world op hop
    simp [isParentOpFor]
  have hweight : (luckWeightOps dctx ctx world).filter (isParentOpFor g) = [] := by
    rw [List.filter_eq_nil_iff]
    intro op hop
    obtain ⟨g', w, rfl⟩ := luckWeightOps_shape dctx ctx world op hop
    simp [isParentOpFor]
  have hpermf : permOps.filter (isParentOpFor g) = [] := by
    rw [List.filter_eq_nil_iff]
    intro op hop
    obtain ⟨a, p, w, rfl⟩ := permDiffOps_shape dctx ctx world _ permOps hperm op hop
    simp [isParentOpFor]
  have hparent : (luckParentOps dctx ctx world).filter (isParentOpFor g)
      = (if dictGet ctx.groups g ≠ dictGet dctx.groups g then
          ((dictGet ctx.groups g).getD []).map fun p => Op.addParent g p world
        else []) := by
    rw [luckParentOps]
    apply filter_flatten_eq_seg
    · exact ((sortByUpper_perm _).nodup_iff).mpr hnd
    · exact mem_sortByUpper.mpr hg
    · intro op hop
      by_cases hne : dictGet ctx.groups g ≠ dictGet dctx.groups g
      · rw [if_pos hne] at hop
        obtain ⟨p, _, rfl⟩ := List.mem_map.mp hop
        simp [isParentOpFor]
      · rw [if_neg hne] at hop
        simp at hop
    · intro g' _ hne op hop
      by_cases hne' : dictGet ctx.groups g' ≠ dictGet dctx.groups g'
      · rw [if_pos hne'] at hop
        obtain ⟨p, _, rfl⟩ := List.mem_map.mp hop
        simp [isParentOpFor, hne]
      · rw [if_neg hne'] at hop
        simp at hop
  rw [hcreate, hweight, hpermf, hparent, List.append_nil, List.nil_append, List.nil_append]

/-- Claim C3 counterexample: two parent lists holding the same parents in
different orders are not treated as equal; the code emits parent-add
operations for the group even though the lists agree as sets. -/
theorem claim_C3_counterexample :
    luckUpdateOps [("default", ⟨[("g", ["a", "b"])], [], []⟩),
        ("w", ⟨[("g", ["b", "a"])], [], []⟩)] "w"
      = some [Op.addParent "g" "b" "w", Op.addParent "g" "a" "w"]
    ∧ (["b", "a"] : List String).Perm ["a", "b"]
    ∧ ([Op.addParent "g" "b" "w", Op.addParent "g" "a" "w"] : List Op) ≠ [] := by
  refine ⟨rfl, ?_, by simp⟩
  decide

theorem claim_C3_witness :
    ([Op.addParent "g" "b" "w", Op.addParent "g" "a" "w"].filter (isParentOpFor "g"))
      = [Op.addParent "g" "b" "w", Op.addParent "g" "a" "w"] := by
  have h := claim_C3_amended [("default", ⟨[("g", ["a", "b"])], [], []⟩),
      ("w", ⟨[("g", ["b", "a"])], [], []⟩)] "w"
    ⟨[("g", ["a", "b"])], [], []⟩ ⟨[("g", ["b", "a"])], [], []⟩
    [Op.addParent "g" "b" "w", Op.addParent "g" "a" "w"]
    (by decide) rfl rfl (by decide) rfl "g" (by decide)
  exact h.trans (by decide)

/-- Claim C4 (amended): deleting a non-default context clears exactly the
groups of the default context (including those absent from the world) and
deletes exactly the groups unique to the world context, and emits nothing
else. -/
theorem claim_C4_amended (contextMap : List (String × Context)) (world : String)
    (dctx ctx : Context)
    (hw : world ≠ "default")
    (hd : dictGet contextMap "default" = some dctx)
    (hc : dictGet contextMap world = some ctx) :
    ∃ ops, luckDeleteOps contextMap world = some ops
      ∧ (∀ g w, Op.clearPerms g w ∈ ops ↔ (g ∈ dictKeys dctx.groups ∧ w = world))
      ∧ (∀ g w, Op.deleteGroup g w ∈ ops ↔
          (g ∈ dictKeys ctx.groups ∧ g ∉ dictKeys dctx.groups ∧ w = world))
      ∧ ∀ op ∈ ops, (∃ g w, op = Op.clearPerms g w) ∨ ∃ g w, op = Op.deleteGroup g w := by
  rw [luckDeleteOps, if_neg hw, hd, hc]
  simp only []
  refine ⟨_, rfl, ?_, ?_, ?_⟩
  · intro g w
    rw [List.mem_append]
    constructor
    · rintro (hm | hm)
      · obtain ⟨g', hg', he⟩ := List.mem_map.mp hm
        injection he with h1 h2
        exact ⟨h1 ▸ mem_sortByUpper.mp hg', h2.symm⟩
      · obtain ⟨g', hg', he⟩ := List.mem_map.mp hm
        simp at he
    · rintro ⟨hg, rfl⟩
      exact Or.inl (List.mem_map.mpr ⟨g, mem_sortByUpper.mpr hg, rfl⟩)
  · intro g w
    rw [List.mem_append]
    constructor
    · rintro (hm | hm)
      · obtain ⟨g', hg', he⟩ := List.mem_map.mp hm
        simp at he
      · obtain ⟨g', hg', he⟩ := List.mem_map.mp hm
        injection he with h1 h2
        subst h1
        rw [mem_sortByUpper, List.mem_dedup, List.mem_filter] at hg'
        exact ⟨hg'.1, by simpa using hg'.2, h2.symm⟩
    · rintro ⟨hg, hng, rfl⟩
      refine Or.inr (List.mem_map.mpr ⟨g, ?_, rfl⟩)
      rw [mem_sortByUpper, List.mem_dedup, List.mem_filter]
      exact ⟨hg, by simpa using hng⟩
  · intro op hop
    rcases List.mem_append.mp hop with hm | hm
    · obtain ⟨g', _, rfl⟩ := List.mem_map.mp hm
      exact Or.inl ⟨g', world, rfl⟩
    · obtain ⟨g', _, rfl⟩ := List.mem_map.mp hm
      exact Or.inr ⟨g', world, rfl⟩

/-- Claim C4 counterexample: the code clears every group of the default
context, not only those shared with the world context; group b is cleared in
world w although it is not present in w's groups map. -/
theorem claim_C4_counterexample :
    luckDeleteOps [("default", ⟨[("a", []), ("b", [])], [], []⟩),
        ("w", ⟨[("a", [])], [], []⟩)] "w"
      = some [Op.clearPerms "a" "w", Op.clearPerms "b" "w"]
    ∧ Op.clearPerms "b" "w" ∈ [Op.clearPerms "a" "w", Op.clearPerms "b" "w"]
    ∧ "b" ∉ dictKeys ([("a", [])] : List (String × List String)) := by
  refine ⟨rfl, by simp, by decide⟩

theorem claim_C4_witness :
    Op.clearPerms "b" "w" ∈ [Op.clearPerms "a" "w", Op.clearPerms "b" "w"] := by
  obtain ⟨ops, hops, hclear, -, -⟩ := claim_C4_amended
    [("default", ⟨[("a", []), ("b", [])], [], []⟩), ("w", ⟨[("a", [])], [], []⟩)] "w"
    ⟨[("a", []), ("b", [])], [], []⟩ ⟨[("a", [])], [], []⟩ (by decide) rfl rfl
  have h2 : luckDeleteOps [("default", ⟨[("a", []), ("b", [])], [], []⟩),
      ("w", ⟨[("a", [])], [], []⟩)] "w"
      = some [Op.clearPerms "a" "w", Op.clearPerms "b" "w"] := rfl
  rw [hops] at h2
  injection h2 with h2
  rw [← h2]
  exact (hclear "b" "w").mpr ⟨by decide, rfl⟩

theorem serverUpdateOps_no_bad (ctx : Context) (world : String) :
    ∀ op ∈ serverUpdateOps ctx world, badDefaultOp op = false := by
  intro op hop
  rw [serverUpdateOps] at hop
  rcases List.mem_append.mp hop with hm | hm
  · rcases List.mem_append.mp hm with hm' | hm'
    · obtain ⟨l, hl, hopl⟩ := List.mem_flatten.mp hm'
      obtain ⟨g, _, rfl⟩ := List.mem_map.mp hl
      rcases List.mem_append.mp hopl with hx | hx
      · by_cases hdef : pyLower g ≠ "default"
        · rw [if_pos hdef] at hx
          rw [List.mem_singleton.mp hx]
          simp [badDefaultOp, hdef]
        · rw [if_neg hdef] at hx
          simp at hx
      · rw [List.mem_singleton.mp hx]
        rfl
    · obtain ⟨l, hl, hopl⟩ := List.mem_flatten.mp hm'
      obtain ⟨g, _, rfl⟩ := List.mem_map.mp hl
      obtain ⟨p, _, rfl⟩ := List.mem_map.mp hopl
      rfl
  · obtain ⟨l, hl, hopl⟩ := List.mem_flatten.mp hm
    obtain ⟨g, _, rfl⟩ := List.mem_map.mp hl
    obtain ⟨p, _, rfl⟩ := List.mem_map.mp hopl
    rfl

theorem serverDeleteOps_no_bad (ctx : Context) (world : String) :
    ∀ op ∈ serverDeleteOps ctx world, badDefaultOp op = false := by
  intro op hop
  obtain ⟨g, _, rfl⟩ := List.mem_map.mp hop
  by_cases hdef : pyLower g = "default"
  · rw [if_pos hdef]
    rfl
  · rw [if_neg hdef]
    simp [badDefaultOp, hdef]

/-- Claim C8 (amended): neither update nor delete ever creates or deletes a
group named case-insensitively default, except that
LuckPermsServer.deletePermissions on a non-default context may delete such a
group when its exact spelling is not a key of the default context's groups;
under the hypothesis that every case-insensitive default group of the world
context is literally a key of the default context, no such operation is
emitted by any of the four functions. -/
theorem claim_C8_amended :
    (∀ ctx world op, op ∈ serverUpdateOps ctx world → badDefaultOp op = false)
    ∧ (∀ ctx world op, op ∈ serverDeleteOps ctx world → badDefaultOp op = false)
    ∧ (∀ contextMap world ops op, luckUpdateOps contextMap world = some ops →
        op ∈ ops → badDefaultOp op = false)
    ∧ (∀ contextMap world ops op dctx ctx,
        luckDeleteOps contextMap world = some ops →
        dictGet contextMap "default" = some dctx →
        dictGet contextMap world = some ctx →
        (∀ g ∈ dictKeys ctx.groups, pyLower g = "default" → g ∈ dictKeys dctx.groups) →
        op ∈ ops → badDefaultOp op = false) := by
  refine ⟨fun ctx world => serverUpdateOps_no_bad ctx world,
    fun ctx world => serverDeleteOps_no_bad ctx world, ?_, ?_⟩
  · intro contextMap world ops op hops hop
    by_cases hw : world = "default"
    · rw [luckUpdateOps, if_pos hw] at hops
      rcases hctx : dictGet contextMap world with _ | ctx
      · rw [hctx] at hops
        simp at hops
      · rw [hctx] at hops
        simp only [Option.map_some'] at hops
        injection hops with hops
        rw [← hops] at hop
        exact serverUpdateOps_no_bad ctx world op hop
    · rcases hd : dictGet contextMap "default" with _ | dctx
      · rw [luckUpdateOps, if_neg hw, hd] at hops
        simp at hops
      · rcases hc : dictGet contextMap world with _ | ctx
        · rw [luckUpdateOps, if_neg hw, hd, hc] at hops
          simp at hops
        · obtain ⟨permOps, hperm, hdecomp⟩ :=
            luckUpdateOps_eq contextMap world dctx ctx ops hw hd hc hops
          rw [hdecomp] at hop
          rcases List.mem_append.mp hop with hm | hm
          · rcases List.mem_append.mp hm with hm' | hm'
            · rcases List.mem_append.mp hm' with hm'' | hm''
              · obtain ⟨g, rfl, hdef, -, -⟩ := luckCreateOps_shape dctx ctx world op hm''
                simp [badDefaultOp, hdef]
              · obtain ⟨g, w, rfl⟩ := luckWeightOps_shape dctx ctx world op hm''
                rfl
            · obtain ⟨g, p, rfl⟩ := luckParentOps_shape dctx ctx world op hm'
              rfl
          · obtain ⟨a, p, w, rfl⟩ := permDiffOps_shape dctx ctx world _ permOps hperm op hm
            rfl
  · intro contextMap world ops op dctx ctx hops hd hc hci hop
    by_cases hw : world = "default"
    · rw [luckDeleteOps, if_pos hw] at hops
      rw [hc] at hops
      simp only [Option.map_some'] at hops
      injection hops with hops
      rw [← hops] at hop
      exact serverDeleteOps_no_bad ctx world op hop
    · rw [luckDeleteOps, if_neg hw, hd, hc] at hops
      simp only [] at hops
      injection hops with hops
      rw [← hops] at hop
      rcases List.mem_append.mp hop with hm | hm
      · obtain ⟨g, _, rfl⟩ := List.mem_map.mp hm
        rfl
      · obtain ⟨g, hg, rfl⟩ := List.mem_map.mp hm
        rw [mem_sortByUpper, List.mem_dedup, List.mem_filter] at hg
        have hng : g ∉ dictKeys dctx.groups := by simpa using hg.2
        have hdef : ¬ pyLower g = "default" := fun hh => hng (hci g hg.1 hh)
        simp [badDefaultOp, hdef]

/-- Claim C8 counterexample: deleting a non-default context deletes a group
spelled Default (case-insensitively default) because its exact spelling is
not a key of the default context's groups. -/
theorem claim_C8_counterexample :
    luckDeleteOps [("default", ⟨[], [], []⟩), ("w", ⟨[("Default", [])], [], []⟩)] "w"
      = some [Op.deleteGroup "Default" "w"]
    ∧ pyLower "Default" = "default"
    ∧ badDefaultOp (Op.deleteGroup "Default" "w") = true := by
  refine ⟨rfl, by decide, by decide⟩

theorem claim_C8_witness :
    badDefaultOp (Op.clearPerms "default" "w") = false :=
  claim_C8_amended.2.2.2
    [("default", ⟨[("default", [])], [], []⟩), ("w", ⟨[("default", [])], [], []⟩)] "w"
    [Op.clearPerms "default" "w"] (Op.clearPerms "default" "w")
    ⟨[("default", [])], [], []⟩ ⟨[("default", [])], [], []⟩
    rfl rfl rfl (by decide) (by simp)

/-! Theory of the depth-first postorder traversal (claims C1 and C5). -/

theorem dfsNodeF_zero (edges : Graph) (node : String) (st : St) :
    dfsNodeF edges 0 node st = none := rfl

theorem dfsNodeF_succ (edges : Graph) (fuel : Nat) (node : String) (st : St) :
    dfsNodeF edges (fuel + 1) node st =
      match dictGet edges node with
      | none => none
      | some deps =>
        match dfsList (dfsNodeF edges fuel) deps st with
        | none => none
        | some (seen, res) =>
          if node ∈ seen then some (seen, res)
          else some (node :: seen, res ++ [node]) := rfl

/-- Result-order invariant: every direct parent of a result entry either
appears strictly earlier in the result, or is pending (seen but not yet in
the result). -/
def GoodRes (edges : Graph) (seen res : List String) : Prop :=
  ∀ g p, g ∈ res → p ∈ parentsOf edges g →
    (p ∈ res ∧ res.indexOf p < res.indexOf g) ∨ (p ∈ seen ∧ p ∉ res)

/-- Stack invariant for a call on node: the node is reachable (by parent
edges) from every pending element. -/
def StackOK (edges : Graph) (node : String) (seen res : List String) : Prop :=
  ∀ p, p ∈ seen → p ∉ res → Reaches edges p node

/-- State invariant threaded through the traversal. -/
def StateOK (edges : Graph) (seen res : List String) : Prop :=
  (∀ x ∈ res, x ∈ seen) ∧ res.Nodup ∧ GoodRes edges seen res

/-- Postcondition of a successful call on node. -/
def PostOK (edges : Graph) (node : String) (seen res seen' res' : List String) : Prop :=
  ∃ D, res' = res ++ D
    ∧ (∀ x ∈ D, x ∉ seen ∧ x ∈ gkeys edges ∧ Reaches edges node x)
    ∧ (∀ x, x ∈ seen' ↔ (x ∈ seen ∨ x ∈ D))
    ∧ node ∈ seen'
    ∧ node ∈ gkeys edges
    ∧ (∀ p ∈ parentsOf edges node, p ∈ res' ∨ (p ∈ seen ∧ p ∉ res))
    ∧ (node ∉ seen → ∃ E, res' = res ++ E ++ [node] ∧ node ∉ E)

/-- Contract of the recursive traversal passed to dfsList. -/
def RecSpec (edges : Graph) (rec : String → St → Option St) : Prop :=
  ∀ node seen res seen' res',
    rec node (seen, res) = some (seen', res') →
    StackOK edges node seen res → StateOK edges seen res →
    PostOK edges node seen res seen' res' ∧ StateOK edges seen' res'

theorem goodres_mono_seen {edges : Graph} {seen seen' res : List String}
    (hsub : ∀ x ∈ seen, x ∈ seen') (h : GoodRes edges seen res) :
    GoodRes edges seen' res := by
  intro g p hg hp
  rcases h g p hg hp with hl | ⟨h1, h2⟩
  · exact Or.inl hl
  · exact Or.inr ⟨hsub p h1, h2⟩

theorem indexOf_append_left {a : String} {l t : List String} (h : a ∈ l) :
    (l ++ t).indexOf a = l.indexOf a := List.indexOf_append_of_mem h

theorem indexOf_snoc_self {x : String} {l : List String} (h : x ∉ l) :
    (l ++ [x]).indexOf x = l.length := by
  rw [List.indexOf_append_of_not_mem h]
  simp

/-- Appending a fresh element whose parents are already in the result (or
pending and different from it) preserves the order invariant, provided the
new element is not a parent of any existing result entry. -/
theorem goodres_append {edges : Graph} {seen res : List String} {x : String}
    (hgood : GoodRes edges seen res)
    (hx : x ∉ res)
    (hxpar : ∀ p ∈ parentsOf edges x, p ∈ res ∨ (p ∈ seen ∧ p ∉ res ∧ p ≠ x))
    (hnoback : ∀ g ∈ res, x ∉ parentsOf edges g) :
    GoodRes edges seen (res ++ [x]) := by
  intro g p hg hp
  rcases List.mem_append.mp hg with hgres | hgx
  · rcases hgood g p hgres hp with ⟨h1, h2⟩ | ⟨h1, h2⟩
    · refine Or.inl ⟨List.mem_append.mpr (Or.inl h1), ?_⟩
      rw [indexOf_append_left h1, indexOf_append_left hgres]
      exact h2
    · have hpx : p ≠ x := by
        intro he
        exact hnoback g hgres (he ▸ hp)
      refine Or.inr ⟨h1, ?_⟩
      intro hmem
      rcases List.mem_append.mp hmem with hm | hm
      · exact h2 hm
      · exact hpx (List.mem_singleton.mp hm)
  · have hgx' : g = x := List.mem_singleton.mp hgx
    subst hgx'
    rcases hxpar p hp with h1 | ⟨h1, h2, h3⟩
    · refine Or.inl ⟨List.mem_append.mpr (Or.inl h1), ?_⟩
      rw [indexOf_append_left h1, indexOf_snoc_self hx]
      exact List.indexOf_lt_length.mpr h1
    · refine Or.inr ⟨h1, ?_⟩
      intro hmem
      rcases List.mem_append.mp hmem with hm | hm
      · exact h2 hm
      · exact h3 (List.mem_singleton.mp hm)

/-- The pending set (seen minus result) is unchanged by a successful call. -/
theorem pending_preserved {edges : Graph} {node : String}
    {seen res seen' res' : List String}
    (hpost : PostOK edges node seen res seen' res') :
    ∀ x, (x ∈ seen' ∧ x ∉ res') ↔ (x ∈ seen ∧ x ∉ res) := by
  obtain ⟨D, hres', hD, hseen', -, -, -, -⟩ := hpost
  intro x
  constructor
  · rintro ⟨h1, h2⟩
    rcases (hseen' x).mp h1 with hm | hm
    · refine ⟨hm, fun hr => h2 ?_⟩
      rw [hres']
      exact List.mem_append.mpr (Or.inl hr)
    · exact absurd (hres' ▸ List.mem_append.mpr (Or.inr hm)) h2
  · rintro ⟨h1, h2⟩
    refine ⟨(hseen' x).mpr (Or.inl h1), fun hr => ?_⟩
    rw [hres'] at hr
    rcases List.mem_append.mp hr with hm | hm
    · exact h2 hm
    · exact (hD x hm).1 h1

/-- Specification of the dependency loop: assuming the recursive traversal
satisfies its contract, the loop visits only fresh keys reachable from (and
distinct from) the node, preserves the state invariant, and leaves every
dependency either in the result or pending as before. -/
theorem dfsList_spec (edges : Graph) (hacyc : Acyclic edges)
    (rec : String → St → Option St) (hrec : RecSpec edges rec) :
    ∀ (ds : List String) (node : String) (seen res seen' res' : List String),
    dfsList rec ds (seen, res) = some (seen', res') →
    (∀ d ∈ ds, d ∈ parentsOf edges node) →
    StackOK edges node seen res → StateOK edges seen res →
    (∃ D, res' = res ++ D
      ∧ (∀ x ∈ D, x ∉ seen ∧ x ∈ gkeys edges ∧ Reaches edges node x ∧ x ≠ node)
      ∧ (∀ x, x ∈ seen' ↔ (x ∈ seen ∨ x ∈ D)))
    ∧ StateOK edges seen' res'
    ∧ (∀ d ∈ ds, d ∈ res' ∨ (d ∈ seen ∧ d ∉ res)) := by
  intro ds
  induction ds with
  | nil =>
    intro node seen res seen' res' h _ _ hstate
    rw [dfsList] at h
    injection h with h
    injection h with h1 h2
    subst h1
    subst h2
    refine ⟨⟨[], by simp, by simp, fun x => by simp⟩, hstate, by simp⟩
  | cons d ds ih =>
    intro node seen res seen' res' h hds hstack hstate
    have hEdge : d ∈ parentsOf edges node := hds d (List.mem_cons_self d ds)
    by_cases hd : d ∈ seen
    · rw [dfsList, if_pos hd] at h
      obtain ⟨⟨D, hres', hD, hseen'⟩, hstate', hcl⟩ :=
        ih node seen res seen' res' h (fun d' hd' => hds d' (List.mem_cons_of_mem _ hd'))
          hstack hstate
      refine ⟨⟨D, hres', hD, hseen'⟩, hstate', ?_⟩
      intro d' hd'
      rcases List.mem_cons.mp hd' with rfl | hd''
      · by_cases hdr : d' ∈ res
        · exact Or.inl (hres' ▸ List.mem_append.mpr (Or.inl hdr))
        · exact Or.inr ⟨hd, hdr⟩
      · exact hcl d' hd''
    · rw [dfsList, if_neg hd] at h
      rcases hrecres : rec d (d :: seen, res) with _ | stA
      · rw [hrecres] at h
        exact absurd h (by simp)
      · rcases stA with ⟨seenA, resA⟩
        rw [hrecres] at h
        simp only [] at h
        have hstackd : StackOK edges d (d :: seen) res := by
          intro p hp hpr
          rcases List.mem_cons.mp hp with rfl | hp'
          · exact Relation.ReflTransGen.refl
          · exact Relation.ReflTransGen.tail (hstack p hp' hpr) hEdge
        have hstated : StateOK edges (d :: seen) res :=
          ⟨fun x hx => List.mem_cons_of_mem _ (hstate.1 x hx), hstate.2.1,
            goodres_mono_seen (fun x hx => List.mem_cons_of_mem _ hx) hstate.2.2⟩
        obtain ⟨hpost, hstateA⟩ := hrec d (d :: seen) res seenA resA hrecres hstackd hstated
        obtain ⟨Dd, hresA, hDd, hseenA, hdseenA, hdkeys, hdpar, -⟩ := hpost
        have hdnotres : d ∉ res := fun hr => hd (hstate.1 d hr)
        have hdnotDd : d ∉ Dd := fun hm => (hDd d hm).1 (List.mem_cons_self d seen)
        have hdnotresA : d ∉ resA := by
          rw [hresA]
          intro hm
          rcases List.mem_append.mp hm with hm' | hm'
          · exact hdnotres hm'
          · exact hdnotDd hm'
        have hseensub : ∀ x ∈ seen, x ∈ seenA :=
          fun x hx => (hseenA x).mpr (Or.inl (List.mem_cons_of_mem _ hx))
        have hressub : ∀ x ∈ res, x ∈ resA :=
          fun x hx => hresA ▸ List.mem_append.mpr (Or.inl hx)
        have hstateNew : StateOK edges seenA (resA ++ [d]) := by
          refine ⟨?_, ?_, ?_⟩
          · intro x hx
            rcases List.mem_append.mp hx with hm | hm
            · exact hstateA.1 x hm
            · rw [List.mem_singleton.mp hm]
              exact hdseenA
          · rw [List.nodup_append]
            exact ⟨hstateA.2.1, List.nodup_singleton d,
              fun a ha hb => hdnotresA ((List.mem_singleton.mp hb) ▸ ha)⟩
          · refine goodres_append hstateA.2.2 hdnotresA ?_ ?_
            · intro p hp
              rcases hdpar p hp with hl | ⟨hps, hpr⟩
              · exact Or.inl hl
              · rcases List.mem_cons.mp hps with rfl | hpm
                · exact absurd (Relation.TransGen.single hp) (hacyc p)
                · refine Or.inr ⟨(hseenA p).mpr (Or.inl (List.mem_cons_of_mem _ hpm)), ?_, ?_⟩
                  · rw [hresA]
                    intro hm
                    rcases List.mem_append.mp hm with hm' | hm'
                    · exact hpr hm'
                    · exact (hDd p hm').1 (List.mem_cons_of_mem _ hpm)
                  · intro he
                    exact hd (he ▸ hpm)
            · intro g hg hcon
              rw [hresA] at hg
              rcases List.mem_append.mp hg with hm | hm
              · rcases hstate.2.2 g d hm hcon with ⟨h1, -⟩ | ⟨h1, -⟩
                · exact hdnotres h1
                · exact hd h1
              · exact hacyc d (Relation.TransGen.tail' (hDd g hm).2.2 hcon)
        have hstackNew : StackOK edges node seenA (resA ++ [d]) := by
          intro p hp hpr
          rcases (hseenA p).mp hp with hm | hm
          · rcases List.mem_cons.mp hm with rfl | hm'
            · exact absurd (List.mem_append.mpr (Or.inr (List.mem_singleton.mpr rfl))) hpr
            · refine hstack p hm' fun hr => hpr (List.mem_append.mpr (Or.inl (hressub p hr)))
          · exact absurd (List.mem_append.mpr (Or.inl (hresA ▸
              List.mem_append.mpr (Or.inr hm)))) hpr
        obtain ⟨⟨D2, hres', hD2, hseen'⟩, hstateF, hclF⟩ :=
          ih node seenA (resA ++ [d]) seen' res' h
            (fun d' hd' => hds d' (List.mem_cons_of_mem _ hd')) hstackNew hstateNew
        have hDdReach : ∀ x ∈ Dd, Reaches edges node x :=
          fun x hx => Relation.ReflTransGen.head hEdge (hDd x hx).2.2
        refine ⟨⟨Dd ++ d :: D2, ?_, ?_, ?_⟩, hstateF, ?_⟩
        · rw [hres', hresA]
          simp
        · intro x hx
          rcases List.mem_append.mp hx with hm | hm
          · obtain ⟨hm1, hm2, hm3⟩ := hDd x hm
            refine ⟨fun hs => hm1 (List.mem_cons_of_mem _ hs), hm2,
              Relation.ReflTransGen.head hEdge hm3, ?_⟩
            intro he
            subst he
            exact hacyc x (Relation.TransGen.head' hEdge hm3)
          · rcases List.mem_cons.mp hm with rfl | hm'
            · refine ⟨hd, hdkeys, Relation.ReflTransGen.single hEdge, ?_⟩
              intro he
              subst he
              exact hacyc x (Relation.TransGen.single hEdge)
            · obtain ⟨hm1, hm2, hm3, hm4⟩ := hD2 x hm'
              exact ⟨fun hs => hm1 (hseensub x hs), hm2, hm3, hm4⟩
        · intro x
          rw [hseen' x, hseenA x]
          simp only [List.mem_cons, List.mem_append]
          constructor
          · rintro ((( rfl | hs) | hDm) | hD2m)
            · exact Or.inr (Or.inr (Or.inl rfl))
            · exact Or.inl hs
            · exact Or.inr (Or.inl hDm)
            · exact Or.inr (Or.inr (Or.inr hD2m))
          · rintro (hs | (hDm | (rfl | hD2m)))
            · exact Or.inl (Or.inl (Or.inr hs))
            · exact Or.inl (Or.inr hDm)
            · exact Or.inl (Or.inl (Or.inl rfl))
            · exact Or.inr hD2m
        · intro d' hd'
          rcases List.mem_cons.mp hd' with rfl | hd''
          · exact Or.inl (hres' ▸ List.mem_append.mpr (Or.inl
              (List.mem_append.mpr (Or.inr (List.mem_singleton.mpr rfl)))))
          · rcases hclF d' hd'' with hl | ⟨h1, h2⟩
            · exact Or.inl hl
            · rcases (hseenA d').mp h1 with hm | hm
              · rcases List.mem_cons.mp hm with rfl | hm'
                · exact absurd (List.mem_append.mpr (Or.inr
                    (List.mem_singleton.mpr rfl))) h2
                · refine Or.inr ⟨hm', fun hr => h2 (List.mem_append.mpr (Or.inl
                    (hressub d' hr)))⟩
              · exact absurd (List.mem_append.mpr (Or.inl (hresA ▸
                  List.mem_append.mpr (Or.inr hm)))) h2

/-- The fuelled traversal satisfies the recursive contract at every fuel. -/
theorem dfsNodeF_recSpec (edges : Graph) (hacyc : Acyclic edges) :
    ∀ fuel, RecSpec edges (dfsNodeF edges fuel) := by
  intro fuel
  induction fuel with
  | zero =>
    intro node seen res seen' res' h
    rw [dfsNodeF_zero] at h
    exact absurd h (by simp)
  | succ fuel ih =>
    intro node seen res seen' res' h hstack hstate
    rw [dfsNodeF_succ] at h
    rcases hdg : dictGet edges node with _ | deps
    · rw [hdg] at h
      exact absurd h (by simp)
    · rw [hdg] at h
      simp only [] at h
      rcases hdl : dfsList (dfsNodeF edges fuel) deps (seen, res) with _ | st2
      · rw [hdl] at h
        exact absurd h (by simp)
      · rcases st2 with ⟨seen2, res2⟩
        rw [hdl] at h
        simp only [] at h
        have hdeps : ∀ d ∈ deps, d ∈ parentsOf edges node := by
          intro d hdm
          rw [parentsOf, hdg]
          exact hdm
        obtain ⟨⟨D, hres2, hD, hseen2⟩, hstate2, hcl⟩ :=
          dfsList_spec edges hacyc _ ih deps node seen res seen2 res2 hdl hdeps hstack hstate
        have hkeys : node ∈ gkeys edges := mem_dictKeys_of_dictGet hdg
        have hpcl : ∀ p ∈ parentsOf edges node, p ∈ res2 ∨ (p ∈ seen ∧ p ∉ res) := by
          intro p hp
          apply hcl
          rw [parentsOf, hdg] at hp
          exact hp
        by_cases hmem : node ∈ seen2
        · rw [if_pos hmem] at h
          injection h with h
          injection h with h1 h2
          subst h1
          subst h2
          exact ⟨⟨D, hres2, fun x hx => ⟨(hD x hx).1, (hD x hx).2.1, (hD x hx).2.2.1⟩,
            hseen2, hmem, hkeys, hpcl, fun hns => by
              rcases (hseen2 node).mp hmem with hm | hm
              · exact absurd hm hns
              · exact absurd rfl (hD node hm).2.2.2⟩, hstate2⟩
        · rw [if_neg hmem] at h
          injection h with h
          injection h with h1 h2
          subst h1
          subst h2
          have hns : node ∉ seen := fun hs => hmem ((hseen2 node).mpr (Or.inl hs))
          have hnres2 : node ∉ res2 := fun hr => hmem (hstate2.1 node hr)
          refine ⟨⟨D ++ [node], by simp [hres2], ?_, ?_, ?_, hkeys, ?_, ?_⟩, ?_⟩
          · intro x hx
            rcases List.mem_append.mp hx with hm | hm
            · exact ⟨(hD x hm).1, (hD x hm).2.1, (hD x hm).2.2.1⟩
            · rw [List.mem_singleton.mp hm]
              exact ⟨hns, hkeys, Relation.ReflTransGen.refl⟩
          · intro x
            rw [List.mem_cons, hseen2 x]
            simp only [List.mem_append, List.mem_singleton]
            constructor
            · rintro (rfl | (hs | hDm))
              · exact Or.inr (Or.inr rfl)
              · exact Or.inl hs
              · exact Or.inr (Or.inl hDm)
            · rintro (hs | (hDm | rfl))
              · exact Or.inr (Or.inl hs)
              · exact Or.inr (Or.inr hDm)
              · exact Or.inl rfl
          · exact List.mem_cons_self _ _
          · intro p hp
            rcases hpcl p hp with hl | hr
            · exact Or.inl (List.mem_append.mpr (Or.inl hl))
            · exact Or.inr hr
          · intro _
            exact ⟨D, by rw [hres2], fun hm => (hD node hm).2.2.2 rfl⟩
          · refine ⟨?_, ?_, ?_⟩
            · intro x hx
              rcases List.mem_append.mp hx with hm | hm
              · exact List.mem_cons_of_mem _ (hstate2.1 x hm)
              · rw [List.mem_singleton.mp hm]
                exact List.mem_cons_self _ _
            · rw [List.nodup_append]
              exact ⟨hstate2.2.1, List.nodup_singleton node,
                fun a ha hb => hnres2 ((List.mem_singleton.mp hb) ▸ ha)⟩
            · apply goodres_mono_seen (fun x hx => List.mem_cons_of_mem _ hx)
              refine goodres_append hstate2.2.2 hnres2 ?_ ?_
              · intro p hp
                rcases hpcl p hp with hl | ⟨hps, hpr⟩
                · exact Or.inl hl
                · refine Or.inr ⟨(hseen2 p).mpr (Or.inl hps), ?_, ?_⟩
                  · rw [hres2]
                    intro hm
                    rcases List.mem_append.mp hm with hm' | hm'
                    · exact hpr hm'
                    · exact (hD p hm').1 hps
                  · intro he
                    exact hns (he ▸ hps)
              · intro g hg hcon
                rw [hres2] at hg
                rcases List.mem_append.mp hg with hm | hm
                · rcases hstate.2.2 g node hm hcon with ⟨h1, -⟩ | ⟨h1, -⟩
                  · exact hns (hstate.1 node h1)
                  · exact hns h1
                · exact hacyc node (Relation.TransGen.tail' (hD g hm).2.2.1 hcon)

/-- Number of graph keys not yet seen. -/
def unseenCount (edges : Graph) (seen : List String) : Nat :=
  (((gkeys edges).dedup).filter fun g => !decide (g ∈ seen)).length

theorem length_filter_le_of_imp {α : Type} (p q : α → Bool)
    (himp : ∀ x, p x = true → q x = true) :
    ∀ l : List α, (l.filter p).length ≤ (l.filter q).length := by
  intro l
  induction l with
  | nil => simp
  | cons a l ih =>
    by_cases hp : p a = true
    · rw [List.filter_cons_of_pos hp, List.filter_cons_of_pos (himp a hp)]
      simpa using ih
    · rw [List.filter_cons_of_neg (by simpa using hp)]
      by_cases hq : q a = true
      · rw [List.filter_cons_of_pos hq]
        exact le_trans ih (by simp)
      · rw [List.filter_cons_of_neg (by simpa using hq)]
        exact ih

theorem length_filter_lt_of_imp {α : Type} [DecidableEq α] (p q : α → Bool)
    (himp : ∀ x, p x = true → q x = true) :
    ∀ (l : List α) (d : α), d ∈ l → p d = false → q d = true →
    (l.filter p).length < (l.filter q).length := by
  intro l
  induction l with
  | nil =>
    intro d hd
    simp at hd
  | cons a l ih =>
    intro d hd hpd hqd
    rcases List.mem_cons.mp hd with rfl | hd'
    · rw [List.filter_cons_of_neg (by simp [hpd]), List.filter_cons_of_pos hqd]
      exact Nat.lt_succ_of_le (length_filter_le_of_imp p q himp l)
    · by_cases hp : p a = true
      · rw [List.filter_cons_of_pos hp, List.filter_cons_of_pos (himp a hp)]
        simpa using ih d hd' hpd hqd
      · rw [List.filter_cons_of_neg (by simpa using hp)]
        by_cases hq : q a = true
        · rw [List.filter_cons_of_pos hq]
          exact Nat.lt_succ_of_le (le_of_lt (ih d hd' hpd hqd))
        · rw [List.filter_cons_of_neg (by simpa using hq)]
          exact ih d hd' hpd hqd

theorem unseenCount_mono (edges : Graph) {seen seen' : List String}
    (hsub : ∀ x ∈ seen, x ∈ seen') :
    unseenCount edges seen' ≤ unseenCount edges seen := by
  apply length_filter_le_of_imp
  intro x hx
  simp only [Bool.not_eq_eq_eq_not, Bool.not_true, decide_eq_false_iff_not] at *
  exact fun hm => hx (hsub x hm)

theorem unseenCount_strict (edges : Graph) {seen : List String} {d : String}
    (hd : d ∈ gkeys edges) (hns : d ∉ seen) :
    unseenCount edges (d :: seen) < unseenCount edges seen := by
  apply length_filter_lt_of_imp
  · intro x hx
    simp only [Bool.not_eq_eq_eq_not, Bool.not_true, decide_eq_false_iff_not] at *
    exact fun hm => hx (List.mem_cons_of_mem _ hm)
  · exact List.mem_dedup.mpr hd
  · simp
  · simpa using hns

theorem unseenCount_le (edges : Graph) (seen : List String) :
    unseenCount edges seen ≤ edges.length := by
  calc unseenCount edges seen
      ≤ ((gkeys edges).dedup).length := List.length_filter_le _ _
    _ ≤ (gkeys edges).length := (List.dedup_sublist _).length_le
    _ = edges.length := List.length_map _ _

/-- Totality of the dependency loop, parameterised by a total recursive
traversal. -/
theorem dfsList_total (edges : Graph) (rec : String → St → Option St) (fuel : Nat)
    (hrec : ∀ node seen res, node ∈ gkeys edges → unseenCount edges seen < fuel →
      ∃ out, rec node (seen, res) = some out ∧ ∀ x ∈ seen, x ∈ out.1) :
    ∀ (ds : List String) (seen res : List String),
      (∀ d ∈ ds, d ∈ gkeys edges) → unseenCount edges seen ≤ fuel →
      ∃ out, dfsList rec ds (seen, res) = some out ∧ ∀ x ∈ seen, x ∈ out.1 := by
  intro ds
  induction ds with
  | nil =>
    intro seen res _ _
    exact ⟨(seen, res), rfl, fun x hx => hx⟩
  | cons d ds ih =>
    intro seen res hds hcount
    by_cases hd : d ∈ seen
    · rw [dfsList, if_pos hd]
      exact ih seen res (fun d' hd' => hds d' (List.mem_cons_of_mem _ hd')) hcount
    · have hcount' : unseenCount edges (d :: seen) < fuel :=
        lt_of_lt_of_le (unseenCount_strict edges (hds d (List.mem_cons_self d ds)) hd)
          hcount
      obtain ⟨out1, hout1, hmono1⟩ := hrec d (d :: seen) res (hds d (List.mem_cons_self d ds))
        hcount'
      rcases out1 with ⟨seenA, resA⟩
      have hcount'' : unseenCount edges seenA ≤ fuel :=
        le_trans (unseenCount_mono edges fun x hx => hmono1 x (List.mem_cons_of_mem _ hx))
          hcount
      obtain ⟨out2, hout2, hmono2⟩ := ih seenA (resA ++ [d])
        (fun d' hd' => hds d' (List.mem_cons_of_mem _ hd')) hcount''
      refine ⟨out2, ?_, fun x hx => hmono2 x (hmono1 x (List.mem_cons_of_mem _ hx))⟩
      rw [dfsList, if_neg hd, hout1]
      simp only []
      exact hout2

/-- Totality of the fuelled traversal: enough fuel and a key node give a
successful run whose seen set only grows. -/
theorem dfsNodeF_total (edges : Graph) (hclosed : ClosedGraph edges) :
    ∀ (fuel : Nat) (node : String) (seen res : List String),
      node ∈ gkeys edges → unseenCount edges seen < fuel →
      ∃ out, dfsNodeF edges fuel node (seen, res) = some out ∧ ∀ x ∈ seen, x ∈ out.1 := by
  intro fuel
  induction fuel with
  | zero =>
    intro node seen res _ hcount
    omega
  | succ fuel ih =>
    intro node seen res hnode hcount
    have hsome : (dictGet edges node).isSome := dictGet_isSome_of_mem hnode
    rcases hdg : dictGet edges node with _ | deps
    · rw [hdg] at hsome
      simp at hsome
    · have hdeps : ∀ d ∈ deps, d ∈ gkeys edges := by
        intro d hdm
        refine hclosed node hnode d ?_
        rw [parentsOf, hdg]
        exact hdm
      obtain ⟨out1, hout1, hmono1⟩ := dfsList_total edges (dfsNodeF edges fuel) fuel ih
        deps seen res hdeps (by omega)
      rcases out1 with ⟨seen2, res2⟩
      rw [dfsNodeF_succ, hdg]
      simp only []
      rw [hout1]
      simp only []
      by_cases hmem : node ∈ seen2
      · rw [if_pos hmem]
        exact ⟨(seen2, res2), rfl, hmono1⟩
      · rw [if_neg hmem]
        exact ⟨(node :: seen2, res2 ++ [node]), rfl,
          fun x hx => List.mem_cons_of_mem _ (hmono1 x hx)⟩

/-- Specification of the root loop of naturallyOrderedGroups: starting from
a quiescent state it succeeds, stays quiescent, only appends nodes reachable
from the processed roots, and ends with every root in the result. -/
theorem dfsRoots_spec (edges : Graph) (hclosed : ClosedGraph edges) (hacyc : Acyclic edges) :
    ∀ (roots seen res : List String),
    (∀ r ∈ roots, r ∈ gkeys edges) →
    StateOK edges seen res → (∀ x, x ∈ seen ↔ x ∈ res) →
    ∃ seenF resF, dfsRoots edges roots (seen, res) = some (seenF, resF)
      ∧ StateOK edges seenF resF ∧ (∀ x, x ∈ seenF ↔ x ∈ resF)
      ∧ (∃ D, resF = res ++ D ∧ ∀ x ∈ D, ∃ r ∈ roots, Reaches edges r x)
      ∧ (∀ r ∈ roots, r ∈ resF) := by
  intro roots
  induction roots with
  | nil =>
    intro seen res _ hstate hq
    exact ⟨seen, res, rfl, hstate, hq, ⟨[], by simp, by simp⟩, by simp⟩
  | cons r roots ih =>
    intro seen res hroots hstate hq
    have hrk : r ∈ gkeys edges := hroots r (List.mem_cons_self r roots)
    obtain ⟨out1, hout1, -⟩ := dfsNodeF_total edges hclosed (dfsFuel edges) r seen res hrk
      (by
        have := unseenCount_le edges seen
        unfold dfsFuel
        omega)
    rcases out1 with ⟨seenA, resA⟩
    have hstack : StackOK edges r seen res := fun p hp hpr => absurd ((hq p).mp hp) hpr
    obtain ⟨hpost, hstateA⟩ := dfsNodeF_recSpec edges hacyc (dfsFuel edges) r seen res
      seenA resA hout1 hstack hstate
    have hqA : ∀ x, x ∈ seenA ↔ x ∈ resA := by
      intro x
      constructor
      · intro hx
        by_contra hr
        obtain ⟨h1, h2⟩ := (pending_preserved hpost x).mp ⟨hx, hr⟩
        exact h2 ((hq x).mp h1)
      · intro hx
        exact hstateA.1 x hx
    obtain ⟨Dr, hresA, hDr, -, hrseenA, -, -, -⟩ := hpost
    obtain ⟨seenF, resF, hrunF, hstateF, hqF, ⟨D2, hresF, hD2⟩, hcompl⟩ :=
      ih seenA resA (fun r' hr' => hroots r' (List.mem_cons_of_mem _ hr')) hstateA hqA
    refine ⟨seenF, resF, ?_, hstateF, hqF, ⟨Dr ++ D2, ?_, ?_⟩, ?_⟩
    · rw [dfsRoots, hout1]
      exact hrunF
    · rw [hresF, hresA, List.append_assoc]
    · intro x hx
      rcases List.mem_append.mp hx with hm | hm
      · exact ⟨r, List.mem_cons_self r roots, (hDr x hm).2.2⟩
      · obtain ⟨r', hr', hreach⟩ := hD2 x hm
        exact ⟨r', List.mem_cons_of_mem _ hr', hreach⟩
    · intro r' hr'
      rcases List.mem_cons.mp hr' with rfl | hr''
      · have hmem : r' ∈ resA := (hqA r').mp hrseenA
        rw [hresF]
        exact List.mem_append.mpr (Or.inl hmem)
      · exact hcompl r' hr''

/-- In a result whose direct parents appear earlier, every transitive parent
appears strictly earlier. -/
theorem ancestor_before (edges : Graph) (res : List String)
    (hdir : ∀ g ∈ res, ∀ p ∈ parentsOf edges g,
      p ∈ res ∧ res.indexOf p < res.indexOf g) :
    ∀ g x, g ∈ res → Ancestor edges g x → x ∈ res ∧ res.indexOf x < res.indexOf g := by
  intro g x hg hanc
  induction hanc with
  | single hstep => exact hdir g hg _ hstep
  | tail hab hbc ih =>
    obtain ⟨hb, hlt⟩ := ih
    obtain ⟨hx, hlt2⟩ := hdir _ hb _ hbc
    exact ⟨hx, lt_trans hlt2 hlt⟩

/-- A group that is nobody's parent is reachable only from itself. -/
theorem reaches_self_of_no_parent (edges : Graph) {x : String}
    (hnp : ∀ k, x ∉ parentsOf edges k) :
    ∀ r, Reaches edges r x → r = x := by
  intro r h
  cases h with
  | refl => rfl
  | tail hrb hbx => exact absurd hbx (hnp _)

theorem dfsRoots_append (edges : Graph) :
    ∀ (l₁ l₂ : List String) (st : St),
    dfsRoots edges (l₁ ++ l₂) st =
      match dfsRoots edges l₁ st with
      | none => none
      | some st' => dfsRoots edges l₂ st' := by
  intro l₁
  induction l₁ with
  | nil => intro l₂ st; rfl
  | cons r l₁ ih =>
    intro l₂ st
    rw [List.cons_append]
    rcases h : dfsNodeF edges (dfsFuel edges) r st with _ | st'
    · rw [dfsRoots, h, dfsRoots, h]
    · rw [dfsRoots, h, dfsRoots, h]
      simp only []
      exact ih l₂ st'

/-- A rank function decreasing along parent edges witnesses acyclicity. -/
theorem acyclic_of_rank (edges : Graph) (rank : String → Nat)
    (hrank : ∀ g ∈ gkeys edges, ∀ p ∈ parentsOf edges g, rank p < rank g) :
    Acyclic edges := by
  have hstep : ∀ a b, Edge edges a b → rank b < rank a := by
    intro a b hab
    by_cases ha : a ∈ gkeys edges
    · exact hrank a ha b hab
    · exfalso
      have hn : dictGet edges a = none := dictGet_eq_none_iff.mpr ha
      have : b ∈ parentsOf edges a := hab
      rw [parentsOf, hn] at this
      simp at this
  have hreach : ∀ a b, Reaches edges a b → rank b ≤ rank a := by
    intro a b hr
    induction hr with
    | refl => exact le_refl _
    | tail hab hbc ih => exact le_trans (le_of_lt (hstep _ _ hbc)) ih
  intro g hg
  obtain ⟨c, hc, hrest⟩ := (Relation.TransGen.head'_iff).mp hg
  have h1 : rank c < rank g := hstep g c hc
  have h2 : rank g ≤ rank c := hreach c g hrest
  omega

theorem no_ancestor_of_nil_parents (edges : Graph) (g : String)
    (h : parentsOf edges g = []) : ∀ x, ¬ Ancestor edges g x := by
  intro x hx
  obtain ⟨c, hc, -⟩ := (Relation.TransGen.head'_iff).mp hx
  have : c ∈ parentsOf edges g := hc
  rw [h] at this
  simp at this

/-- Claim C1 (amended): for a finite acyclic closed groups map, the natural
order contains every group exactly once; every transitive parent of a group
appears strictly earlier than the group; and any two groups neither of which
is a parent of any group appear in case-insensitive lexicographic order. -/
theorem claim_C1_amended (edges : Graph)
    (hnd : (gkeys edges).Nodup) (hclosed : ClosedGraph edges) (hacyc : Acyclic edges) :
    ∃ res, naturallyOrderedGroups edges = some res
      ∧ res.Nodup
      ∧ (∀ g ∈ gkeys edges, g ∈ res)
      ∧ (∀ g x, g ∈ res → Ancestor edges g x → x ∈ res ∧ res.indexOf x < res.indexOf g)
      ∧ (∀ g h, g ∈ gkeys edges → h ∈ gkeys edges →
          (∀ k, g ∉ parentsOf edges k) → (∀ k, h ∉ parentsOf edges k) →
          (pyUpper g).data < (pyUpper h).data →
          res.indexOf g < res.indexOf h) := by
  have hroots : ∀ r ∈ sortByUpper (gkeys edges), r ∈ gkeys edges :=
    fun r hr => mem_sortByUpper.mp hr
  have hstate0 : StateOK edges [] [] :=
    ⟨by simp, List.nodup_nil, fun g p hg => absurd hg (List.not_mem_nil g)⟩
  obtain ⟨seenF, resF, hrun, hstateF, hqF, ⟨DF, hDF, hDFo⟩, hcompl⟩ :=
    dfsRoots_spec edges hclosed hacyc (sortByUpper (gkeys edges)) [] [] hroots hstate0
      (by simp)
  have hnog : naturallyOrderedGroups edges = some resF := by
    rw [naturallyOrderedGroups, hrun]
    rfl
  refine ⟨resF, hnog, hstateF.2.1, fun g hg => hcompl g (mem_sortByUpper.mpr hg), ?_, ?_⟩
  · apply ancestor_before
    intro g hg p hp
    rcases hstateF.2.2 g p hg hp with hl | ⟨h1, h2⟩
    · exact hl
    · exact absurd ((hqF p).mp h1) h2
  · intro g h hgk hhk hgnp hhnp hlt
    have hne : g ≠ h := by
      intro he
      rw [he] at hlt
      exact lt_irrefl _ hlt
    have hgr : g ∈ sortByUpper (gkeys edges) := mem_sortByUpper.mpr hgk
    have hhr : h ∈ sortByUpper (gkeys edges) := mem_sortByUpper.mpr hhk
    obtain ⟨A, B, hsplit⟩ := List.append_of_mem hgr
    have hrnd : (sortByUpper (gkeys edges)).Nodup := (sortByUpper_perm _).nodup_iff.mpr hnd
    have hsorted : List.Pairwise upperLe (A ++ g :: B) :=
      hsplit ▸ sortByUpper_sorted (gkeys edges)
    have hsplitnd : (A ++ g :: B).Nodup := hsplit ▸ hrnd
    have hdisj := (List.nodup_append.mp hsplitnd).2.2
    have hgA : g ∉ A := fun hm => hdisj hm (List.mem_cons_self g B)
    have hhA : h ∉ A := by
      intro hm
      have hle : upperLe h g := (List.pairwise_append.mp hsorted).2.2 h hm g
        (List.mem_cons_self g B)
      exact absurd hle (not_le_of_lt hlt)
    have hhB : h ∈ B := by
      have : h ∈ A ++ g :: B := hsplit ▸ hhr
      rcases List.mem_append.mp this with hm | hm
      · exact absurd hm hhA
      · rcases List.mem_cons.mp hm with he | hm'
        · exact absurd he.symm hne
        · exact hm'
    rw [hsplit, dfsRoots_append] at hrun
    obtain ⟨seen1, res1, hA, hstate1, hq1, ⟨D1, hres1, hD1o⟩, -⟩ :=
      dfsRoots_spec edges hclosed hacyc A [] [] (fun r hr => hroots r (hsplit ▸
        List.mem_append.mpr (Or.inl hr))) hstate0 (by simp)
    rw [hA] at hrun
    simp only [] at hrun
    have hgres1 : g ∉ res1 := by
      intro hm
      rw [hres1] at hm
      simp only [List.nil_append] at hm
      obtain ⟨r, hr, hreach⟩ := hD1o g hm
      exact hgA ((reaches_self_of_no_parent edges hgnp r hreach) ▸ hr)
    have hhres1 : h ∉ res1 := by
      intro hm
      rw [hres1] at hm
      simp only [List.nil_append] at hm
      obtain ⟨r, hr, hreach⟩ := hD1o h hm
      exact hhA ((reaches_self_of_no_parent edges hhnp r hreach) ▸ hr)
    rcases hg2 : dfsNodeF edges (dfsFuel edges) g (seen1, res1) with _ | st2
    · rw [dfsRoots, hg2] at hrun
      exact absurd hrun (by simp)
    · rcases st2 with ⟨seen2, res2⟩
      rw [dfsRoots, hg2] at hrun
      simp only [] at hrun
      have hstack1 : StackOK edges g seen1 res1 :=
        fun p hp hpr => absurd ((hq1 p).mp hp) hpr
      obtain ⟨hpost2, hstate2⟩ := dfsNodeF_recSpec edges hacyc (dfsFuel edges) g seen1 res1
        seen2 res2 hg2 hstack1 hstate1
      have hpend2 := pending_preserved hpost2
      obtain ⟨Dg, hres2, hDg, -, hgseen2, -, -, -⟩ := hpost2
      have hq2 : ∀ x, x ∈ seen2 ↔ x ∈ res2 := by
        intro x
        constructor
        · intro hx
          by_contra hr
          obtain ⟨h1, h2⟩ := (hpend2 x).mp ⟨hx, hr⟩
          exact h2 ((hq1 x).mp h1)
        · intro hx
          exact hstate2.1 x hx
      have hgres2 : g ∈ res2 := (hq2 g).mp hgseen2
      have hhres2 : h ∉ res2 := by
        intro hm
        rw [hres2] at hm
        rcases List.mem_append.mp hm with hm' | hm'
        · exact hhres1 hm'
        · exact hne (reaches_self_of_no_parent edges hhnp g (hDg h hm').2.2)
      obtain ⟨seenF', resF', hB, -, -, ⟨D3, hresF', -⟩, hcomplB⟩ :=
        dfsRoots_spec edges hclosed hacyc B seen2 res2 (fun r hr => hroots r (hsplit ▸
          List.mem_append.mpr (Or.inr (List.mem_cons_of_mem _ hr)))) hstate2 hq2
      rw [hB] at hrun
      injection hrun with hrun
      injection hrun with hrun1 hrun2
      subst hrun1
      subst hrun2
      have hidxg : resF'.indexOf g < res2.length := by
        rw [hresF', indexOf_append_left hgres2]
        exact List.indexOf_lt_length.mpr hgres2
      have hidxh : res2.length ≤ resF'.indexOf h := by
        rw [hresF', List.indexOf_append_of_not_mem hhres2]
        omega
      omega

/-- Concrete graph refuting the unrestricted tie-break clause of claim C1. -/
def exGraphC1 : Graph := [("a", ["c"]), ("b", []), ("c", [])]

/-- Claim C1 counterexample: in the acyclic closed graph where a inherits
from c and b is unrelated to both, the natural order is [c, a, b]: groups b
and c have no inheritance relation, b precedes c case-insensitively, yet c
appears before b. -/
theorem claim_C1_counterexample :
    (gkeys exGraphC1).Nodup ∧ ClosedGraph exGraphC1 ∧ Acyclic exGraphC1
    ∧ naturallyOrderedGroups exGraphC1 = some ["c", "a", "b"]
    ∧ ¬ Ancestor exGraphC1 "b" "c" ∧ ¬ Ancestor exGraphC1 "c" "b"
    ∧ (pyUpper "b").data < (pyUpper "c").data
    ∧ ["c", "a", "b"].indexOf "c" < ["c", "a", "b"].indexOf "b" := by
  refine ⟨by decide, by decide, ?_, by decide, ?_, ?_, by decide, by decide⟩
  · exact acyclic_of_rank exGraphC1 (fun s => if s = "c" then 0 else 1) (by decide)
  · exact fun hx => no_ancestor_of_nil_parents exGraphC1 "b" (by decide) "c" hx
  · exact fun hx => no_ancestor_of_nil_parents exGraphC1 "c" (by decide) "b" hx

theorem claim_C1_witness :
    ∃ res, naturallyOrderedGroups exGraphC1 = some res
      ∧ ∀ g ∈ gkeys exGraphC1, g ∈ res := by
  obtain ⟨res, h1, -, h3, -, -⟩ := claim_C1_amended exGraphC1 (by decide) (by decide)
    (acyclic_of_rank exGraphC1 (fun s => if s = "c" then 0 else 1) (by decide))
  exact ⟨res, h1, h3⟩

/-- allAncestors returns exactly the transitive parents of the group. -/
theorem allAncestors_spec (edges : Graph) (hclosed : ClosedGraph edges)
    (hacyc : Acyclic edges) (g : String) (hg : g ∈ gkeys edges) :
    ∃ anc, allAncestors g edges = some anc
      ∧ ∀ x, x ∈ anc ↔ Ancestor edges g x := by
  obtain ⟨out, hout, -⟩ := dfsNodeF_total edges hclosed (dfsFuel edges) g [] [] hg
    (by
      have := unseenCount_le edges []
      unfold dfsFuel
      omega)
  rcases out with ⟨seen', res'⟩
  have hstate0 : StateOK edges [] [] :=
    ⟨by simp, List.nodup_nil, fun x p hx => absurd hx (List.not_mem_nil x)⟩
  have hstack0 : StackOK edges g [] [] := fun p hp => absurd hp (List.not_mem_nil p)
  obtain ⟨hpost, hstate'⟩ := dfsNodeF_recSpec edges hacyc (dfsFuel edges) g [] [] seen' res'
    hout hstack0 hstate0
  have hpend := pending_preserved hpost
  obtain ⟨D, hres', hD, -, -, -, -, hlast⟩ := hpost
  obtain ⟨E, hresE, hgE⟩ := hlast (List.not_mem_nil g)
  simp only [List.nil_append] at hresE hres'
  refine ⟨res'.reverse.drop 1, ?_, ?_⟩
  · rw [allAncestors, hout]
    rfl
  · intro x
    have hrev : res'.reverse.drop 1 = E.reverse := by
      rw [hresE, List.reverse_append]
      simp
    rw [hrev, List.mem_reverse]
    constructor
    · intro hx
      have hxres : x ∈ res' := by
        rw [hresE]
        exact List.mem_append.mpr (Or.inl hx)
      have hxD : x ∈ D := by
        rw [hres'] at hxres
        exact hxres
      have hreach : Reaches edges g x := (hD x hxD).2.2
      have hne : x ≠ g := by
        intro he
        subst he
        exact hgE hx
      rcases Relation.ReflTransGen.cases_head hreach with he | ⟨c, hc, hrest⟩
      · exact absurd he.symm hne
      · exact Relation.TransGen.head' hc hrest
    · intro hanc
      have hdir : ∀ a ∈ res', ∀ p ∈ parentsOf edges a,
          p ∈ res' ∧ res'.indexOf p < res'.indexOf a := by
        intro a ha p hp
        rcases hstate'.2.2 a p ha hp with hl | ⟨h1, h2⟩
        · exact hl
        · exact absurd ((hpend p).mp ⟨h1, h2⟩).1 (List.not_mem_nil p)
      have hgres' : g ∈ res' := by
        rw [hresE]
        simp
      obtain ⟨hxres, -⟩ := ancestor_before edges res' hdir g x hgres' hanc
      rw [hresE] at hxres
      rcases List.mem_append.mp hxres with hm | hm
      · exact hm
      · rw [List.mem_singleton.mp hm] at hanc
        exact absurd hanc (hacyc g)

/-- First-match semantics of the ancestor scan of writeModuleFiles: a clean
prefix followed by an ancestor holding the inverse keeps the permission; a
clean prefix followed by an ancestor holding the same polarity drops it; a
scan finding neither keeps it. -/
theorem scanKeep_spec (permissions : List (String × List String)) (perm inv : String) :
    ∀ anc : List String,
    ((∀ a ∈ anc, inv ∉ (dictGet permissions a).getD []
        ∧ perm ∉ (dictGet permissions a).getD []) →
      scanKeep permissions perm inv anc = true)
    ∧ (∀ A a B, anc = A ++ a :: B →
        (∀ a' ∈ A, inv ∉ (dictGet permissions a').getD []
          ∧ perm ∉ (dictGet permissions a').getD []) →
        inv ∈ (dictGet permissions a).getD [] →
        scanKeep permissions perm inv anc = true)
    ∧ (∀ A a B, anc = A ++ a :: B →
        (∀ a' ∈ A, inv ∉ (dictGet permissions a').getD []
          ∧ perm ∉ (dictGet permissions a').getD []) →
        inv ∉ (dictGet permissions a).getD [] →
        perm ∈ (dictGet permissions a).getD [] →
        scanKeep permissions perm inv anc = false) := by
  intro anc
  induction anc with
  | nil =>
    refine ⟨fun _ => rfl, ?_, ?_⟩
    · intro A a B hsplit _ _
      exfalso
      have hlen := congrArg List.length hsplit
      simp at hlen
      omega
    · intro A a B hsplit _ _ _
      exfalso
      have hlen := congrArg List.length hsplit
      simp at hlen
      omega
  | cons b anc ih =>
    refine ⟨?_, ?_, ?_⟩
    · intro hall
      rw [scanKeep, if_neg (hall b (List.mem_cons_self _ _)).1,
        if_neg (hall b (List.mem_cons_self _ _)).2]
      exact ih.1 fun a ha => hall a (List.mem_cons_of_mem _ ha)
    · intro A a B hsplit hclean hinv
      rcases A with _ | ⟨a0, A'⟩
      · simp only [List.nil_append] at hsplit
        injection hsplit with h1 h2
        subst h1
        rw [scanKeep, if_pos hinv]
      · rw [List.cons_append] at hsplit
        injection hsplit with h1 h2
        subst h1
        rw [scanKeep, if_neg (hclean b (List.mem_cons_self _ _)).1,
          if_neg (hclean b (List.mem_cons_self _ _)).2]
        exact ih.2.1 A' a B h2 (fun a' ha' => hclean a' (List.mem_cons_of_mem _ ha')) hinv
    · intro A a B hsplit hclean hinv hperm
      rcases A with _ | ⟨a0, A'⟩
      · simp only [List.nil_append] at hsplit
        injection hsplit with h1 h2
        subst h1
        rw [scanKeep, if_neg hinv, if_pos hperm]
      · rw [List.cons_append] at hsplit
        injection hsplit with h1 h2
        subst h1
        rw [scanKeep, if_neg (hclean b (List.mem_cons_self _ _)).1,
          if_neg (hclean b (List.mem_cons_self _ _)).2]
        exact ih.2.2 A' a B h2 (fun a' ha' => hclean a' (List.mem_cons_of_mem _ ha'))
          hinv hperm

/-- Claim C5: for a group of a finalized (closed, acyclic) context, the
export logic scans the group's transitive parents in the allAncestors order;
a permission of the group is exported exactly when the scan keeps it, and
the first scanned ancestor holding either polarity decides: its negation
keeps the permission, the same polarity drops it, and absence everywhere
keeps it. -/
theorem claim_C5 (ctx : Context) (g : String)
    (hclosed : ClosedGraph ctx.groups) (hacyc : Acyclic ctx.groups)
    (hg : g ∈ gkeys ctx.groups) :
    ∃ anc kept, allAncestors g ctx.groups = some anc
      ∧ exportedPerms ctx g = some kept
      ∧ (∀ x, x ∈ anc ↔ Ancestor ctx.groups g x)
      ∧ (∀ perm, perm ∈ kept ↔ perm ∈ (dictGet ctx.permissions g).getD []
          ∧ scanKeep ctx.permissions perm (inverseOf perm) anc = true)
      ∧ ∀ perm inv,
          ((∀ a ∈ anc, inv ∉ (dictGet ctx.permissions a).getD []
              ∧ perm ∉ (dictGet ctx.permissions a).getD []) →
            scanKeep ctx.permissions perm inv anc = true)
          ∧ (∀ A a B, anc = A ++ a :: B →
              (∀ a' ∈ A, inv ∉ (dictGet ctx.permissions a').getD []
                ∧ perm ∉ (dictGet ctx.permissions a').getD []) →
              inv ∈ (dictGet ctx.permissions a).getD [] →
              scanKeep ctx.permissions perm inv anc = true)
          ∧ (∀ A a B, anc = A ++ a :: B →
              (∀ a' ∈ A, inv ∉ (dictGet ctx.permissions a').getD []
                ∧ perm ∉ (dictGet ctx.permissions a').getD []) →
              inv ∉ (dictGet ctx.permissions a).getD [] →
              perm ∈ (dictGet ctx.permissions a).getD [] →
              scanKeep ctx.permissions perm inv anc = false) := by
  obtain ⟨anc, hanc, hiff⟩ := allAncestors_spec ctx.groups hclosed hacyc g hg
  refine ⟨anc, ((dictGet ctx.permissions g).getD []).filter fun perm =>
      scanKeep ctx.permissions perm (inverseOf perm) anc, hanc, ?_, hiff, ?_,
    fun perm inv => scanKeep_spec ctx.permissions perm inv anc⟩
  · rw [exportedPerms, hanc]
    rfl
  · intro perm
    rw [List.mem_filter]

/-- The concrete context of the claim C5 scenario: group B inherits from A
and both declare permission x.y. -/
def exCtxC5 : Context :=
  ⟨[("A", []), ("B", ["A"])], [], [("A", ["x.y"]), ("B", ["x.y"])]⟩

theorem claim_C5_witness :
    ∃ kept, exportedPerms exCtxC5 "B" = some kept ∧ "x.y" ∉ kept
      ∧ ∃ keptA, exportedPerms exCtxC5 "A" = some keptA ∧ "x.y" ∈ keptA := by
  have hacycC5 : Acyclic exCtxC5.groups :=
    acyclic_of_rank exCtxC5.groups (fun s => if s = "A" then 0 else 1) (by decide)
  obtain ⟨anc, kept, -, h2, -, -, -⟩ := claim_C5 exCtxC5 "B" (by decide) hacycC5 (by decide)
  obtain ⟨ancA, keptA, -, h2A, -, -, -⟩ := claim_C5 exCtxC5 "A" (by decide) hacycC5 (by decide)
  have hB : exportedPerms exCtxC5 "B" = some [] := rfl
  have hA : exportedPerms exCtxC5 "A" = some ["x.y"] := rfl
  rw [h2] at hB
  injection hB with hB
  rw [h2A] at hA
  injection hA with hA
  subst hB
  subst hA
  exact ⟨[], h2, by simp, ["x.y"], h2A, by simp⟩

end Mkgroups
